import Mathlib

/-!
Host load scoring, best-host selection and their collaborators.

A shallow embedding of the Go packages of the repository:

* `internal/host`: the `LoadInfo` record, the sampler `GetLoad` (reachability probe,
  remote inspection call, parsing of the five-field line) and the selector `FindBest`;
* `internal/run`: the result `OnAll` builds from what its channel delivers;
* `internal/config`: `Config.GetGroup`, the line parser of `ParseSSHConfig`, `GetHost`;
* `internal/sync`: the remote path of `Push`;
* `cmd/d`: `getTargetHosts` and the selection scan of the `load` command.

Conventions:

* Remote effects (the `ssh` probe and the `ssh` inspection call) and the reading of the
  configuration are explicit state passing over an arbitrary world type `σ`.
* Text is a list of Unicode code points.
* A Go `float64` is its IEEE-754 bit pattern; only the comparison operators the
  program applies to it are interpreted.  `strconv.ParseFloat` and `strings.ToLower`
  are parameters.
* A Go `int` is a 64-bit integer, embedded in `Int`.
-/

namespace Distributed

/-! ## float64 -/

/-- A Go `float64`, given by its IEEE-754 binary64 bit pattern (read modulo `2^64`). -/
structure Float64 where
  bits : Nat
deriving DecidableEq, Repr

namespace Float64

/-- Sign bit (bit 63). -/
def sign (x : Float64) : Nat := x.bits / 2 ^ 63 % 2

/-- Biased exponent (bits 52..62). -/
def expo (x : Float64) : Nat := x.bits / 2 ^ 52 % 2048

/-- Fraction field (bits 0..51). -/
def frac (x : Float64) : Nat := x.bits % 2 ^ 52

/-- NaN: exponent all ones and a non-zero fraction. -/
def isNaN (x : Float64) : Bool := x.expo == 2047 && x.frac != 0

/-- Sign-magnitude rank of a value: on non-NaN values the numeric order of
`float64` is the order of this integer (`+0` and `-0` both rank `0`). -/
def key (x : Float64) : Int :=
  if x.sign = 1 then -((x.expo * 2 ^ 52 + x.frac : Nat) : Int)
  else ((x.expo * 2 ^ 52 + x.frac : Nat) : Int)

/-- Go `x < y` on `float64`: false as soon as an operand is NaN. -/
def lt (x y : Float64) : Bool := !x.isNaN && !y.isNaN && decide (x.key < y.key)

/-- Go `x <= y` on `float64`: false as soon as an operand is NaN. -/
def le (x y : Float64) : Bool := !x.isNaN && !y.isNaN && decide (x.key ≤ y.key)

/-- The zero value of `float64` (`+0`). -/
def zero : Float64 := ⟨0⟩

end Float64

/-! ## Data model -/

/-- The record `LoadInfo` of `host.go`. -/
structure LoadInfo where
  Host : String
  Load : Float64
  CPUs : Int
  CPUPct : Int
  MemPct : Int
  Score : Float64
  Reachable : Bool
deriving DecidableEq, Repr

/-- The errors `host.go` builds with `fmt.Errorf`. -/
inductive Error where
  /-- The error `failed to get load: %w`, wrapping the failure of the remote call. -/
  | getLoadFailed (cause : String)
  /-- The error `unexpected output format`. -/
  | unexpectedFormat
  /-- The error `no reachable hosts found`. -/
  | noReachableHosts
deriving DecidableEq, Repr

/-- What one call `GetLoad(host)` returns: `(info, nil)` or `(nil, err)`. -/
abbrev Outcome := Except Error LoadInfo

/-- A sampler: one call of `GetLoad`, acting on the world `σ`. -/
abbrev Sampler (σ : Type) := String → σ → Outcome × σ

/-! ## FindBest -/

/-- One iteration of the body of the `for` loop of `FindBest`, given the outcome
of `GetLoad`.  `best` is the pointer held so far; it is paired with the index of
the iteration that assigned it, which is what identifies a `*LoadInfo`. -/
def FindBest.step (best : Option (Nat × LoadInfo)) (i : Nat) :
    Outcome → Option (Nat × LoadInfo)
  | .error _ => best
  | .ok info =>
    if !info.Reachable then best
    else
      match best with
      | none => some (i, info)
      | some (k, b) => if info.Score.lt b.Score then some (i, info) else some (k, b)

/-- The `for _, host := range hosts` loop of `FindBest`, from iteration `i` on. -/
def FindBest.scan {σ : Type} (GetLoad : Sampler σ) :
    List String → Nat → Option (Nat × LoadInfo) → σ → Option (Nat × LoadInfo) × σ
  | [], _, best, w => (best, w)
  | host :: rest, i, best, w =>
    let r := GetLoad host w
    FindBest.scan GetLoad rest (i + 1) (FindBest.step best i r.1) r.2

/-- The result of `FindBest(hosts)` together with the index of the iteration whose
sample is returned. -/
def FindBestAt {σ : Type} (GetLoad : Sampler σ) (hosts : List String) (w : σ) :
    Except Error (Nat × LoadInfo) × σ :=
  match FindBest.scan GetLoad hosts 0 none w with
  | (none, w') => (.error .noReachableHosts, w')
  | (some b, w') => (.ok b, w')

/-- The function `FindBest(hosts)`: the sample with the lowest score, or the error
`no reachable hosts found`. -/
def FindBest {σ : Type} (GetLoad : Sampler σ) (hosts : List String) (w : σ) :
    Outcome × σ :=
  match FindBest.scan GetLoad hosts 0 none w with
  | (none, w') => (.error .noReachableHosts, w')
  | (some b, w') => (.ok b.2, w')

/-- The outcomes of calling the sampler once per host, in the order of `hosts`,
and the world after the last call. -/
def sampleAll {σ : Type} (GetLoad : Sampler σ) : List String → σ → List Outcome × σ
  | [], w => ([], w)
  | host :: rest, w =>
    let r := GetLoad host w
    let rs := sampleAll GetLoad rest r.2
    (r.1 :: rs.1, rs.2)

/-- A sampler that replays a prepared sequence of outcomes, one per call. -/
def replay : Sampler (List Outcome)
  | _, [] => (.error (.getLoadFailed "no outcome"), [])
  | _, o :: os => (o, os)

/-- A sampler in which a failed call is replaced by an unreachable sample. -/
def degrade {σ : Type} (GetLoad : Sampler σ) : Sampler σ := fun host w =>
  match GetLoad host w with
  | (.error _, w') =>
    (.ok ⟨host, Float64.zero, 0, 0, 0, Float64.zero, false⟩, w')
  | (.ok info, w') => (.ok info, w')

/-- The selection `FindBest` performs on a given sequence of outcomes: the loop
of `FindBest` with the calls to the sampler already made. -/
def FindBest.select : List Outcome → Nat → Option (Nat × LoadInfo) → Option (Nat × LoadInfo)
  | [], _, best => best
  | o :: os, i, best => FindBest.select os (i + 1) (FindBest.step best i o)

/-! ## strings and strconv, as `GetLoad` uses them -/

/-- White space as `unicode.IsSpace` defines it. -/
def isSpace (c : Char) : Bool :=
  c.toNat == 0x09 || c.toNat == 0x0A || c.toNat == 0x0B || c.toNat == 0x0C ||
  c.toNat == 0x0D || c.toNat == 0x20 || c.toNat == 0x85 || c.toNat == 0xA0 ||
  c.toNat == 0x1680 || (0x2000 ≤ c.toNat && c.toNat ≤ 0x200A) ||
  c.toNat == 0x2028 || c.toNat == 0x2029 || c.toNat == 0x202F ||
  c.toNat == 0x205F || c.toNat == 0x3000

/-- The function `strings.TrimSpace`: leading and trailing white space removed. -/
def TrimSpace (s : List Char) : List Char :=
  ((s.dropWhile isSpace).reverse.dropWhile isSpace).reverse

/-- The function `strings.Split(s, sep)` for a one-character separator: the fields between the
separators, one more than there are separators. -/
def Split (sep : Char) : List Char → List (List Char)
  | [] => [[]]
  | c :: cs =>
    if c = sep then [] :: Split sep cs
    else
      match Split sep cs with
      | [] => [[c]]
      | field :: fields => (c :: field) :: fields

/-- The two kinds of `*strconv.NumError`. -/
inductive NumError where
  | ErrSyntax
  | ErrRange
deriving DecidableEq, Repr

/-- The largest `uint64`, `1<<64 - 1`. -/
def maxUint64 : Nat := 2 ^ 64 - 1

/-- The digit loop of `strconv.ParseUint(s, 10, 64)`, `n` being the value read so
far: a character that is not a decimal digit is a syntax error, an overflow
of `uint64` is a range error reported as soon as it happens. -/
def ParseUint.loop : List Char → Nat → Nat × Option NumError
  | [], n => (n, none)
  | c :: cs, n =>
    if 48 ≤ c.toNat ∧ c.toNat ≤ 57 then
      if n ≥ maxUint64 / 10 + 1 then (maxUint64, some .ErrRange)
      else if n * 10 + (c.toNat - 48) > maxUint64 then (maxUint64, some .ErrRange)
      else ParseUint.loop cs (n * 10 + (c.toNat - 48))
    else (0, some .ErrSyntax)

/-- The function `strconv.ParseUint(s, 10, 64)`: the empty text is a syntax error. -/
def ParseUint (s : List Char) : Nat × Option NumError :=
  if s = [] then (0, some .ErrSyntax) else ParseUint.loop s 0

/-- The function `strconv.ParseInt(s, 10, 0)` with a 64-bit `int`: an optional sign, then
`ParseUint`; a value outside `int64` is a range error and is replaced by the
nearest bound. -/
def ParseInt (s : List Char) : Int × Option NumError :=
  match s with
  | [] => (0, some .ErrSyntax)
  | c :: cs =>
    let neg : Bool := c = '-'
    let digits := if c = '+' ∨ c = '-' then cs else c :: cs
    match ParseUint digits with
    | (_, some .ErrSyntax) => (0, some .ErrSyntax)
    | (un, _) =>
      if !neg && decide (un ≥ 2 ^ 63) then (2 ^ 63 - 1, some .ErrRange)
      else if neg && decide (un > 2 ^ 63) then (-(2 ^ 63), some .ErrRange)
      else (if neg then -(un : Int) else (un : Int), none)

/-- The function `strconv.Atoi(s)` with a 64-bit `int`: the value and the error it returns.  Its
fast path for short texts returns what `ParseInt(s, 10, 0)` returns. -/
def Atoi (s : List Char) : Int × Option NumError := ParseInt s

/-- The decimal numeral of an integer, as `echo` writes it: an optional `-` and
the digits, most significant first. -/
def decimal : Int → List Char
  | .ofNat n => Nat.toDigits 10 n
  | .negSucc n => '-' :: Nat.toDigits 10 (n + 1)

/-- The 64-bit integer nearest to `n`: `n` itself when it is one, the bound of
`int64` on its side otherwise. -/
def clampInt64 (n : Int) : Int :=
  if n < -(2 ^ 63) then -(2 ^ 63) else if 2 ^ 63 ≤ n then 2 ^ 63 - 1 else n

/-! ## GetLoad -/

/-- What `GetLoad` obtains from outside the program. -/
structure Remote (σ : Type) where
  /-- The call `CheckReachable(host, 2*time.Second)`: whether `ssh ... host exit`
  succeeded. -/
  CheckReachable : String → σ → Bool × σ
  /-- The call `exec.Command("ssh", "-o", "LogLevel=QUIET", host, script).Output()`: the
  standard output of the inspection script, or the failure of the command. -/
  Output : String → σ → Except String (List Char) × σ
  /-- The function `strconv.ParseFloat(s, 64)`: the value and the error it returns. -/
  ParseFloat : List Char → Float64 × Option NumError

/-- The parsing step of `GetLoad` (from `strings.Split` to the final `return`):
the errors of the five conversions are discarded (`load, _ := ...`). -/
def GetLoad.parse (ParseFloat : List Char → Float64 × Option NumError) (host : String)
    (output : List Char) : Outcome :=
  let parts := Split '|' (TrimSpace output)
  if parts.length ≠ 5 then .error .unexpectedFormat
  else
    .ok {
      Host := host
      Load := (ParseFloat (parts.getD 0 [])).1
      CPUs := (Atoi (parts.getD 1 [])).1
      CPUPct := (Atoi (parts.getD 2 [])).1
      MemPct := (Atoi (parts.getD 3 [])).1
      Score := (ParseFloat (parts.getD 4 [])).1
      Reachable := true }

/-- The function `GetLoad(host)`: an unreachable sample when the probe fails, an error
when the inspection call fails or its output is not a five-field line, a reachable
sample otherwise. -/
def GetLoad {σ : Type} (R : Remote σ) : Sampler σ := fun host w =>
  match R.CheckReachable host w with
  | (false, w1) =>
    (.ok { Host := host, Load := Float64.zero, CPUs := 0, CPUPct := 0, MemPct := 0,
           Score := Float64.zero, Reachable := false }, w1)
  | (true, w1) =>
    match R.Output host w1 with
    | (.error err, w2) => (.error (.getLoadFailed err), w2)
    | (.ok output, w2) => (GetLoad.parse R.ParseFloat host output, w2)

/-- A remote host that answers the probe and whose inspection command fails. -/
def failingRemote : Remote Unit where
  CheckReachable := fun _ w => (true, w)
  Output := fun _ w => (.error "exit status 255", w)
  ParseFloat := fun _ => (Float64.zero, some .ErrSyntax)

/-- The restriction of `strconv.ParseFloat` to the texts `2.50` and `187.00`. -/
def parseFloatTable (s : List Char) : Float64 × Option NumError :=
  if s = "2.50".toList then (⟨0x4004000000000000⟩, none)
  else if s = "187.00".toList then (⟨0x4067600000000000⟩, none)
  else (Float64.zero, some .ErrSyntax)

/-- The restriction of `strconv.ParseFloat` to the texts `0`, `1.00`, `30.0`, `50.0`
and `73.00`. -/
def parseFloatScores (s : List Char) : Float64 × Option NumError :=
  if s = "0".toList then (⟨0⟩, none)
  else if s = "1.00".toList then (⟨0x3FF0000000000000⟩, none)
  else if s = "30.0".toList then (⟨0x403E000000000000⟩, none)
  else if s = "50.0".toList then (⟨0x4049000000000000⟩, none)
  else if s = "73.00".toList then (⟨0x4052400000000000⟩, none)
  else (Float64.zero, some .ErrSyntax)

/-- A reachable host whose inspection command prints `1.00|1|100|10|73.00`. -/
def scriptedRemote : Remote Unit where
  CheckReachable := fun _ w => (true, w)
  Output := fun _ w => (.ok "1.00|1|100|10|73.00\n".toList, w)
  ParseFloat := parseFloatScores

/-! ## Sample sequences of `host_test.go` -/

/-- The composite literal `&LoadInfo{Host: host, Score: score, Reachable: reachable}`:
the fields it does not name hold their zero value. -/
def sample (host : String) (score : Float64) (reachable : Bool) : LoadInfo :=
  ⟨host, Float64.zero, 0, 0, 0, score, reachable⟩

/-- The value `5.0`. -/
def f5 : Float64 := ⟨0x4014000000000000⟩

/-- The value `10.0`. -/
def f10 : Float64 := ⟨0x4024000000000000⟩

/-- The value `30.0`. -/
def f30 : Float64 := ⟨0x403E000000000000⟩

/-- The value `50.0`. -/
def f50 : Float64 := ⟨0x4049000000000000⟩

/-- A quiet NaN, the value `strconv.ParseFloat` returns for the text `NaN`. -/
def fNaN : Float64 := ⟨0x7FF8000000000001⟩

/-- Test case "skip unreachable hosts". -/
def skipUnreachable : List Outcome :=
  [.ok (sample "host1" f10 false), .ok (sample "host2" f50 true), .ok (sample "host3" f5 false)]

/-- Test case "all hosts unreachable", its scores being `10.0` and `20.0`. -/
def allUnreachable : List Outcome :=
  [.ok (sample "host1" f10 false), .ok (sample "host2" ⟨0x4034000000000000⟩ false)]

/-- A first host at `50.0` followed by two hosts tied at `30.0`. -/
def tiedAfterFirst : List Outcome :=
  [.ok (sample "host1" f50 true), .ok (sample "host2" f30 true), .ok (sample "host3" f30 true)]

/-- A reachable sample whose score is NaN, followed by a reachable sample at `10.0`. -/
def nanFirst : List Outcome :=
  [.ok (sample "host1" fNaN true), .ok (sample "host2" f10 true)]

/-- A remote host that does not answer the probe.  The world counts the calls of
the inspection command. -/
def silentRemote : Remote Nat where
  CheckReachable := fun _ w => (false, w)
  Output := fun _ w => (.ok [], w + 1)
  ParseFloat := parseFloatTable

/-! ## OnAll (`internal/run`) -/

/-- The error `OnHost` returns when the remote command fails, `nil` being `none`. -/
abbrev RunError := String

/-- The second loop of `OnAll`, `for range hosts`, each iteration of which receives
one value from the channel `errors`.  `errors` lists the values the launched units
send, in the order they are sent (the completion order).  A receive on a channel
that stays empty blocks for ever: the result is then `none`. -/
def OnAll.join : List String → List (Option RunError) → Option RunError →
    Option (Option RunError)
  | [], _, lastErr => some lastErr
  | _ :: _, [], _ => none
  | _ :: rest, err :: errors, lastErr =>
    match err with
    | some e => OnAll.join rest errors (some e)
    | none => OnAll.join rest errors lastErr

/-- The result of `OnAll(hosts, command)`, given what the channel delivers:
`var lastErr error`, the receiving loop, `return lastErr`. -/
def OnAll (hosts : List String) (errors : List (Option RunError)) :
    Option (Option RunError) :=
  OnAll.join hosts errors none

/-! ## getTargetHosts (`cmd/d`) and `Config.GetGroup` (`internal/config`) -/

/-- The record `Config`: the map `Groups`, given by its key/value pairs. -/
structure Config where
  Groups : List (String × List String)
deriving DecidableEq, Repr

/-- The errors `getTargetHosts` returns. -/
inductive TargetError where
  /-- The error of `config.Load()`, passed on. -/
  | loadFailed (cause : String)
  /-- The error `group %q not found`. -/
  | groupNotFound (name : String)
  /-- The error `no hosts in group %q`. -/
  | noHostsInGroup (name : String)
deriving DecidableEq, Repr

/-- The method `Config.GetGroup(name)`: the hosts of the group, or an error when the
map has no such key. -/
def Config.GetGroup (c : Config) (name : String) : Except TargetError (List String) :=
  match c.Groups.lookup name with
  | none => .error (.groupNotFound name)
  | some hosts => .ok hosts

/-- The function `getTargetHosts()`, the flags and `config.Load` being explicit. -/
def getTargetHosts {σ : Type} (hostFlag groupFlag : String)
    (Load : σ → Except String Config × σ) (w : σ) :
    Except TargetError (List String) × σ :=
  if hostFlag ≠ "" then (.ok [hostFlag], w)
  else
    match Load w with
    | (.error err, w1) => (.error (.loadFailed err), w1)
    | (.ok cfg, w1) =>
      match cfg.GetGroup groupFlag with
      | .error err => (.error err, w1)
      | .ok hosts =>
        if hosts.length = 0 then (.error (.noHostsInGroup groupFlag), w1)
        else (.ok hosts, w1)

/-- A `config.Load` that returns the default configuration, `dev` with no hosts, and
counts its calls. -/
def loadDefault : Nat → Except String Config × Nat :=
  fun w => (.ok ⟨[("dev", [])]⟩, w + 1)

/-! ## GetHost (`internal/config`) -/

/-- The record `SSHHost`. -/
structure SSHHost where
  Alias : List Char
  Hostname : List Char
  User : List Char
  Port : List Char
deriving DecidableEq, Repr

/-- The function `GetHost(hosts, alias)`: the first host with that alias (`name`
here), `nil` being `none`. -/
def GetHost : List SSHHost → List Char → Option SSHHost
  | [], _ => none
  | h :: rest, name => if h.Alias = name then some h else GetHost rest name

/-- The hosts of `TestGetHost`. -/
def testHosts : List SSHHost :=
  [⟨"host1".toList, "192.168.1.1".toList, "user1".toList, "22".toList⟩,
   ⟨"host2".toList, "192.168.1.2".toList, "user2".toList, "2222".toList⟩,
   ⟨"host3".toList, "192.168.1.3".toList, "user3".toList, "22".toList⟩]

/-! ## ParseSSHConfig (`internal/config`) -/

/-- Whether `s` begins with `p` (`strings.HasPrefix`). -/
def HasPrefix : List Char → List Char → Bool
  | _, [] => true
  | [], _ :: _ => false
  | c :: s, d :: p => c == d && HasPrefix s p

/-- The loop of `strings.Fields`, `cur` being the field read so far, reversed. -/
def Fields.loop : List Char → List Char → List (List Char)
  | [], cur => if cur = [] then [] else [cur.reverse]
  | c :: cs, cur =>
    if isSpace c then
      if cur = [] then Fields.loop cs [] else cur.reverse :: Fields.loop cs []
    else Fields.loop cs (c :: cur)

/-- The function `strings.Fields`: the maximal runs of characters that are not white
space. -/
def Fields (s : List Char) : List (List Char) := Fields.loop s []

/-- The function `strings.ToLower` on ASCII text: `A`..`Z` become `a`..`z`. -/
def asciiToLower (s : List Char) : List Char :=
  s.map (fun c => if 65 ≤ c.toNat ∧ c.toNat ≤ 90 then Char.ofNat (c.toNat + 32) else c)

/-- The key and the value of a line of the file, as the loop of `ParseSSHConfig`
reads them: nothing for an empty line, a comment, or a line with fewer than two
fields; otherwise the first field in lower case and the second field.
`ToLower` is `strings.ToLower`. -/
def ParseSSHConfig.directive (ToLower : List Char → List Char) (text : List Char) :
    Option (List Char × List Char) :=
  let line := TrimSpace text
  if line = [] ∨ HasPrefix line ['#'] then none
  else
    let fields := Fields line
    if fields.length < 2 then none
    else some (ToLower (fields.getD 0 []), fields.getD 1 [])

/-- The assignment `hosts[len(hosts)-1].F = value`, `f` setting the field. -/
def ParseSSHConfig.setLast (f : SSHHost → SSHHost) : List SSHHost → List SSHHost
  | [] => []
  | [h] => [f h]
  | h :: h2 :: rest => h :: ParseSSHConfig.setLast f (h2 :: rest)

/-- The variables `hosts` and `currentHost` of `ParseSSHConfig`. -/
structure ParseSSHConfig.State where
  hosts : List SSHHost
  currentHost : Option SSHHost
deriving DecidableEq, Repr

/-- The `switch key` of the loop of `ParseSSHConfig`. -/
def ParseSSHConfig.switch (st : ParseSSHConfig.State) (key value : List Char) :
    ParseSSHConfig.State :=
  if key = "host".toList then
    if '*' ∈ value then { st with currentHost := none }
    else
      { hosts := st.hosts ++ [⟨value, [], [], "22".toList⟩]
        currentHost := some ⟨value, [], [], "22".toList⟩ }
  else if key = "hostname".toList then
    if st.currentHost.isSome then
      { st with hosts := ParseSSHConfig.setLast (fun h => { h with Hostname := value }) st.hosts }
    else st
  else if key = "user".toList then
    if st.currentHost.isSome then
      { st with hosts := ParseSSHConfig.setLast (fun h => { h with User := value }) st.hosts }
    else st
  else if key = "port".toList then
    if st.currentHost.isSome then
      { st with hosts := ParseSSHConfig.setLast (fun h => { h with Port := value }) st.hosts }
    else st
  else st

/-- The loop `for scanner.Scan()` of `ParseSSHConfig`, over the lines the scanner
yields. -/
def ParseSSHConfig.scan (ToLower : List Char → List Char) :
    List (List Char) → ParseSSHConfig.State → ParseSSHConfig.State
  | [], st => st
  | text :: rest, st =>
    match ParseSSHConfig.directive ToLower text with
    | none => ParseSSHConfig.scan ToLower rest st
    | some (key, value) =>
      ParseSSHConfig.scan ToLower rest (ParseSSHConfig.switch st key value)

/-- The number of bytes of a character in UTF-8. -/
def utf8Len (c : Char) : Nat :=
  if c.toNat < 0x80 then 1 else if c.toNat < 0x800 then 2
  else if c.toNat < 0x10000 then 3 else 4

/-- The length `len(s)` of a text, in bytes. -/
def byteLen (s : List Char) : Nat := (s.map utf8Len).sum

/-- The constant `bufio.MaxScanTokenSize`. -/
def maxScanTokenSize : Nat := 64 * 1024

/-- The lines of a text as `bufio.ScanLines` cuts them, before the carriage return
is dropped: the text between two newlines, and what follows the last newline when it
is not empty.  `cur` is the line read so far, reversed. -/
def ScanLines.loop : List Char → List Char → List (List Char)
  | [], cur => if cur = [] then [] else [cur.reverse]
  | c :: cs, cur =>
    if c = '\n' then cur.reverse :: ScanLines.loop cs [] else ScanLines.loop cs (c :: cur)

/-- The function `dropCR` of `bufio`: a final carriage return is dropped. -/
def dropCR (l : List Char) : List Char :=
  if l.getLast? = some '\r' then l.dropLast else l

/-- The errors `ParseSSHConfig` returns. -/
inductive ConfigError where
  /-- The error of `os.UserHomeDir` or of `os.Open`, passed on. -/
  | openFailed (cause : String)
  /-- The error `bufio.ErrTooLong` of the scanner. -/
  | ErrTooLong
deriving DecidableEq, Repr

/-- The texts `scanner.Text()` yields, one per successful `scanner.Scan()`, and the
final `scanner.Err()`, for a file with the given lines.  A line of
`MaxScanTokenSize` bytes or more does not fit the buffer of the scanner: `Scan`
returns false there and `Err` is `ErrTooLong`. -/
def Scan : List (List Char) → List (List Char) × Option ConfigError
  | [] => ([], none)
  | line :: rest =>
    if byteLen line ≥ maxScanTokenSize then ([], some .ErrTooLong)
    else (dropCR line :: (Scan rest).1, (Scan rest).2)

/-- The function `ParseSSHConfig()`, `file` being the content of `~/.ssh/config`, a
text in UTF-8 that is read to its end, or the error `os.UserHomeDir` or `os.Open`
returned: the hosts read, and the error.  The scanner cuts the text into lines and
stops at the first line it cannot hold; the hosts read so far are returned with its
error. -/
def ParseSSHConfig (ToLower : List Char → List Char) (file : Except String (List Char)) :
    List SSHHost × Option ConfigError :=
  match file with
  | .error err => ([], some (.openFailed err))
  | .ok text =>
    let scanned := Scan (ScanLines.loop text [])
    ((ParseSSHConfig.scan ToLower scanned.1 ⟨[], none⟩).hosts, scanned.2)

/-- The text of a file: the given lines, each ended by a newline, followed by a last
line that no newline ends (empty when the file ends with a newline). -/
def fileText (lines : List (List Char)) (last : List Char) : List Char :=
  lines.flatMap (fun l => l ++ ['\n']) ++ last

/-- The value a line gives to the directive `key`: nothing when the line is not
that directive. -/
def ParseSSHConfig.valueOf (ToLower : List Char → List Char) (key text : List Char) :
    Option (List Char) :=
  match ParseSSHConfig.directive ToLower text with
  | some (k, v) => if k = key then some v else none
  | none => none

/-- A block of the file: a `Host` line and the lines that follow it, up to the next
`Host` line. -/
structure HostBlock where
  head : List Char
  body : List (List Char)
deriving DecidableEq, Repr

/-- The lines of a block. -/
def HostBlock.lines (b : HostBlock) : List (List Char) := b.head :: b.body

/-- The entry a block stands for: none when the pattern of its `Host` line contains
`*`; otherwise the alias, with the `HostName`, `User` and `Port` its body gives, empty,
empty and `22` when the body gives none. -/
def HostBlock.entry (ToLower : List Char → List Char) (b : HostBlock) : Option SSHHost :=
  match ParseSSHConfig.valueOf ToLower "host".toList b.head with
  | none => none
  | some pattern =>
    if '*' ∈ pattern then none
    else
      some {
        Alias := pattern
        Hostname :=
          ((b.body.filterMap (ParseSSHConfig.valueOf ToLower "hostname".toList)).head?).getD []
        User := ((b.body.filterMap (ParseSSHConfig.valueOf ToLower "user".toList)).head?).getD []
        Port :=
          ((b.body.filterMap (ParseSSHConfig.valueOf ToLower "port".toList)).head?).getD
            "22".toList }

/-- The lines of the file of `TestParseSSHConfig`. -/
def testConfig : List (List Char) :=
  ["# Test SSH config".toList,
   "Host homelab".toList,
   "    HostName 100.72.192.70".toList,
   "    User wv3".toList,
   "    Port 22".toList,
   "".toList,
   "Host sonia-mac".toList,
   "    HostName 100.75.170.108".toList,
   "    User sonia".toList,
   "".toList,
   "# This should be ignored".toList,
   "Host *".toList,
   "    ServerAliveInterval 60".toList,
   "".toList,
   "Host basic".toList,
   "    HostName example.com".toList,
   "".toList,
   "Host with-custom-port".toList,
   "    HostName custom.example.com".toList,
   "    User admin".toList,
   "    Port 2222".toList]

/-- The content of the file of `TestParseSSHConfig`. -/
def testText : List Char :=
  ("# Test SSH config\nHost homelab\n    HostName 100.72.192.70\n    User wv3\n" ++
   "    Port 22\n\nHost sonia-mac\n    HostName 100.75.170.108\n    User sonia\n\n" ++
   "# This should be ignored\nHost *\n    ServerAliveInterval 60\n\nHost basic\n" ++
   "    HostName example.com\n\nHost with-custom-port\n" ++
   "    HostName custom.example.com\n    User admin\n    Port 2222\n").toList

/-- The lines of a file whose second line is a comment of 65536 bytes. -/
def longLineConfig : List (List Char) :=
  ["Host a".toList, List.replicate 65536 '#', "Host b".toList]

/-- The blocks of the file of `TestParseSSHConfig`, after its first line. -/
def testBlocks : List HostBlock :=
  [⟨"Host homelab".toList,
      ["    HostName 100.72.192.70".toList, "    User wv3".toList, "    Port 22".toList,
       "".toList]⟩,
   ⟨"Host sonia-mac".toList,
      ["    HostName 100.75.170.108".toList, "    User sonia".toList, "".toList,
       "# This should be ignored".toList]⟩,
   ⟨"Host *".toList, ["    ServerAliveInterval 60".toList, "".toList]⟩,
   ⟨"Host basic".toList, ["    HostName example.com".toList, "".toList]⟩,
   ⟨"Host with-custom-port".toList,
      ["    HostName custom.example.com".toList, "    User admin".toList,
       "    Port 2222".toList]⟩]

/-- The blocks of the file `longLineConfig`. -/
def longLineBlocks : List HostBlock :=
  [⟨"Host a".toList, [List.replicate 65536 '#']⟩, ⟨"Host b".toList, []⟩]

/-- A line as the author of the file writes a directive: white space, a keyword, white
space, an argument, and a remainder. -/
structure DirectiveLine where
  indent : List Char
  key : List Char
  gap : List Char
  value : List Char
  rest : List Char
deriving DecidableEq, Repr

/-- The text of the line. -/
def DirectiveLine.text (d : DirectiveLine) : List Char :=
  d.indent ++ (d.key ++ (d.gap ++ (d.value ++ d.rest)))

/-- The parts are what their names say: the indentation is white space; the keyword is
not empty, holds no white space and does not begin with `#`; the gap is white space
and is not empty; the argument is not empty and holds no white space; the remainder
is empty or begins with white space. -/
def DirectiveLine.wellFormed (d : DirectiveLine) : Bool :=
  d.indent.all isSpace &&
  !d.key.isEmpty && d.key.all (fun c => !isSpace c) && d.key.head? != some '#' &&
  !d.gap.isEmpty && d.gap.all isSpace &&
  !d.value.isEmpty && d.value.all (fun c => !isSpace c) &&
  d.rest.head?.all isSpace

/-! ## Push (`internal/sync`) -/

/-- The function `strings.Replace(s, old, new, 1)`: the first occurrence of `old` in
`s` replaced by `new`; `s` itself when there is none. -/
def Replace (old new : List Char) : List Char → List Char
  | [] => if old = [] then new else []
  | c :: s =>
    if HasPrefix (c :: s) old then new ++ (c :: s).drop old.length
    else c :: Replace old new s

/-- The remote path of `Push`: `strings.Replace(absPath, home, "~", 1)`. -/
def Push.remotePath (absPath home : List Char) : List Char :=
  Replace home ['~'] absPath

/-! ## The `load` command (`cmd/d`) -/

/-- A row the `load` command writes to its table. -/
inductive Row where
  /-- The row of a host that gave no reachable sample: its name and five dashes. -/
  | dashes (host : String)
  /-- The row of a reachable sample, `marker` telling whether the arrow is printed. -/
  | metrics (info : LoadInfo) (marker : Bool)
deriving DecidableEq, Repr

/-- One iteration of the loop of `loadCmd`, given the outcome of `GetLoad`: the row it
writes and the new value of `best`. -/
def loadCmd.step (best : Option LoadInfo) (h : String) : Outcome → Row × Option LoadInfo
  | .error _ => (.dashes h, best)
  | .ok info =>
    if !info.Reachable then (.dashes h, best)
    else
      match best with
      | none => (.metrics info true, some info)
      | some b =>
        if info.Score.lt b.Score then (.metrics info true, some info)
        else (.metrics info false, some b)

/-- The loop `for _, h := range hosts` of `loadCmd`: the rows written, in order. -/
def loadCmd.scan {σ : Type} (GetLoad : Sampler σ) :
    List String → Option LoadInfo → σ → List Row × σ
  | [], _, w => ([], w)
  | h :: rest, best, w =>
    let r := GetLoad h w
    let rs := loadCmd.scan GetLoad rest (loadCmd.step best h r.1).2 r.2
    ((loadCmd.step best h r.1).1 :: rs.1, rs.2)

/-- The rows of the table of `loadCmd`, `best` starting at `nil`. -/
def loadCmd {σ : Type} (GetLoad : Sampler σ) (hosts : List String) (w : σ) : List Row × σ :=
  loadCmd.scan GetLoad hosts none w

/-- The rows `loadCmd` writes for given hosts and outcomes, the calls to the sampler
already made. -/
def loadCmd.rows : List String → List Outcome → Option LoadInfo → List Row
  | h :: hosts, o :: os, best =>
    (loadCmd.step best h o).1 :: loadCmd.rows hosts os (loadCmd.step best h o).2
  | _, _, _ => []

/-- The value of `best` in `loadCmd` after the given hosts and outcomes. -/
def loadCmd.bestAfter : List String → List Outcome → Option LoadInfo → Option LoadInfo
  | h :: hosts, o :: os, best => loadCmd.bestAfter hosts os (loadCmd.step best h o).2
  | _, _, best => best

/-- The last row that carries the arrow, with its index, from index `i` on. -/
def lastMarked : List Row → Nat → Option (Nat × LoadInfo) → Option (Nat × LoadInfo)
  | [], _, found => found
  | .metrics info true :: rows, i, _ => lastMarked rows (i + 1) (some (i, info))
  | _ :: rows, i, found => lastMarked rows (i + 1) found

/-- A strict running minimum of a sequence of outcomes: a reachable sample whose score
is strictly less than the score of every reachable sample before it. -/
def strictRunningMinimum (outcomes : List Outcome) (i : Nat) : Prop :=
  ∃ s, outcomes[i]? = some (Except.ok s) ∧ s.Reachable = true ∧
    ∀ j t, j < i → outcomes[j]? = some (Except.ok t) → t.Reachable = true →
      s.Score.lt t.Score = true

/-- A reachable sample at `10.0`, one whose score is NaN, one at `5.0`. -/
def nanMiddle : List Outcome :=
  [.ok (sample "host1" f10 true), .ok (sample "host2" fNaN true),
   .ok (sample "host3" f5 true)]

/-- A failed call of the sampler followed by a reachable sample at `10.0`. -/
def failThenReachable : List Outcome :=
  [.error (.getLoadFailed "exit status 255"), .ok (sample "host2" f10 true)]

/-! ## Theorems: float64 comparison -/

theorem Float64.lt_irrefl (x : Float64) : x.lt x = false := by
  simp [Float64.lt]

theorem Float64.lt_false_of_lt (s x b : Float64) (hx : x.lt b = true)
    (hs : s.lt b = false) : s.lt x = false ∧ s.le x = false := by
  simp only [Float64.lt, Float64.le, Bool.and_eq_true, Bool.not_eq_true',
    decide_eq_true_eq, Bool.and_eq_false_iff, Bool.not_eq_false', decide_eq_false_iff_not] at *
  obtain ⟨⟨hx1, hb1⟩, hlt⟩ := hx
  rcases hs with (hs | hs) | hs
  · exact ⟨Or.inl (Or.inl hs), Or.inl (Or.inl hs)⟩
  · rw [hb1] at hs; cases hs
  · exact ⟨Or.inr (by omega), Or.inr (by omega)⟩

theorem Float64.le_of_not_lt (s b : Float64) (hs : s.isNaN = false) (hb : b.isNaN = false)
    (h : s.lt b = false) : b.le s = true := by
  simp only [Float64.lt, Float64.le, hs, hb, Bool.not_false, Bool.true_and,
    decide_eq_false_iff_not, decide_eq_true_eq] at *
  omega

/-! ## Theorems: the scan of FindBest -/

theorem FindBest.scan_eq_select {σ : Type} (GetLoad : Sampler σ) (hosts : List String)
    (i : Nat) (best : Option (Nat × LoadInfo)) (w : σ) :
    FindBest.scan GetLoad hosts i best w =
      (FindBest.select (sampleAll GetLoad hosts w).1 i best, (sampleAll GetLoad hosts w).2) := by
  induction hosts generalizing i best w with
  | nil => rfl
  | cons host rest ih => simp only [FindBest.scan, sampleAll, FindBest.select, ih]

theorem FindBest.select_append (os os2 : List Outcome) (i : Nat)
    (best : Option (Nat × LoadInfo)) :
    FindBest.select (os ++ os2) i best =
      FindBest.select os2 (i + os.length) (FindBest.select os i best) := by
  induction os generalizing i best with
  | nil => simp [FindBest.select]
  | cons o os ih =>
    rw [List.cons_append]
    simp only [FindBest.select]
    rw [ih, List.length_cons, show i + 1 + os.length = i + (os.length + 1) by omega]

theorem getElem?_snoc_eq_some {α : Type} (os : List α) (o x : α) (j : Nat) :
    (os ++ [o])[j]? = some x ↔ os[j]? = some x ∨ (j = os.length ∧ o = x) := by
  rcases Nat.lt_trichotomy j os.length with h | h | h
  · rw [List.getElem?_append_left h]
    constructor
    · exact Or.inl
    · rintro (h1 | ⟨h1, -⟩)
      · exact h1
      · omega
  · subst h
    simp
  · rw [List.getElem?_eq_none (by simp only [List.length_append, List.length_singleton]; omega),
      List.getElem?_eq_none (Nat.le_of_lt h)]
    constructor
    · intro h1; cases h1
    · rintro (h1 | ⟨h1, -⟩)
      · cases h1
      · omega

/-- Invariant of the selection after any number of iterations, started from
`best = nil`: the held sample is reachable, sits at the recorded index, no
reachable sample seen so far is strictly smaller, and every reachable sample
seen before it is strictly larger (or NaN). -/
theorem FindBest.select_invariant (os : List Outcome) :
    (FindBest.select os 0 none = none ↔
        ∀ s, Except.ok s ∈ os → s.Reachable = false) ∧
    ∀ k b, FindBest.select os 0 none = some (k, b) →
      os[k]? = some (Except.ok b) ∧ b.Reachable = true ∧
      ∀ j s, os[j]? = some (Except.ok s) → s.Reachable = true →
        s.Score.lt b.Score = false ∧ (j < k → s.Score.le b.Score = false) := by
  induction os using List.reverseRecOn with
  | nil => simp [FindBest.select]
  | append_singleton os o ih =>
    obtain ⟨ihn, ihs⟩ := ih
    rw [FindBest.select_append]
    simp only [FindBest.select, Nat.zero_add]
    -- facts about the previous state that do not depend on the new outcome
    have keep : ∀ k b, FindBest.select os 0 none = some (k, b) →
        (∀ s, (o = Except.ok s → s.Reachable = true → s.Score.lt b.Score = false)) →
        (os ++ [o])[k]? = some (Except.ok b) ∧ b.Reachable = true ∧
        ∀ j s, (os ++ [o])[j]? = some (Except.ok s) → s.Reachable = true →
          s.Score.lt b.Score = false ∧ (j < k → s.Score.le b.Score = false) := by
      intro k b hkb hnew
      obtain ⟨h1, h2, h3⟩ := ihs k b hkb
      have hk : k < os.length := (List.getElem?_eq_some_iff.1 h1).1
      refine ⟨(getElem?_snoc_eq_some _ _ _ _).2 (Or.inl h1), h2, ?_⟩
      intro j s hj hr
      rcases (getElem?_snoc_eq_some _ _ _ _).1 hj with hj | ⟨hj, ho⟩
      · exact h3 j s hj hr
      · exact ⟨hnew s ho hr, fun hlt => by omega⟩
    rcases o with e | info
    · -- the call failed
      simp only [FindBest.step]
      refine ⟨?_, ?_⟩
      · rw [ihn]; simp
      · intro k b hkb
        exact keep k b hkb (fun s ho => by cases ho)
    · -- the call returned a sample
      cases hr : info.Reachable with
      | false =>
        simp only [FindBest.step, hr, Bool.not_false, if_true]
        refine ⟨?_, ?_⟩
        · rw [ihn]
          constructor
          · intro h s hs
            rcases List.mem_append.1 hs with hs | hs
            · exact h s hs
            · simp only [List.mem_singleton, Except.ok.injEq] at hs
              rw [hs]; exact hr
          · intro h s hs
            exact h s (List.mem_append_left _ hs)
        · intro k b hkb
          refine keep k b hkb (fun s ho hs => ?_)
          simp only [Except.ok.injEq] at ho
          rw [← ho, hr] at hs; cases hs
      | true =>
        have hmem : ¬ ∀ s, Except.ok s ∈ os ++ [Except.ok info] → s.Reachable = false := by
          intro h
          have := h info (List.mem_append_right _ (List.mem_singleton_self _))
          rw [hr] at this; cases this
        have hlast : (os ++ [(Except.ok info : Outcome)])[os.length]? = some (Except.ok info) :=
          (getElem?_snoc_eq_some _ _ _ _).2 (Or.inr ⟨rfl, rfl⟩)
        cases hsel : FindBest.select os 0 none with
        | none =>
          simp only [FindBest.step, hr, Bool.not_true, Bool.false_eq_true, if_false]
          refine ⟨⟨fun h => Option.noConfusion h, fun h => absurd h hmem⟩, ?_⟩
          intro k b hkb
          simp only [Option.some.injEq, Prod.mk.injEq] at hkb
          obtain ⟨rfl, rfl⟩ := hkb
          refine ⟨hlast, hr, ?_⟩
          intro j s hj hs
          rcases (getElem?_snoc_eq_some _ _ _ _).1 hj with hj | ⟨hj, ho⟩
          · have := (ihn.1 hsel) s (List.getElem?_mem hj)
            rw [hs] at this; cases this
          · simp only [Except.ok.injEq] at ho
            subst ho
            exact ⟨Float64.lt_irrefl _, fun hlt => by omega⟩
        | some kb =>
          obtain ⟨k0, b0⟩ := kb
          simp only [FindBest.step, hr, Bool.not_true, Bool.false_eq_true, if_false]
          cases hlt : info.Score.lt b0.Score with
          | true =>
            simp only [if_true]
            refine ⟨⟨fun h => Option.noConfusion h, fun h => absurd h hmem⟩, ?_⟩
            intro k b hkb
            simp only [Option.some.injEq, Prod.mk.injEq] at hkb
            obtain ⟨rfl, rfl⟩ := hkb
            refine ⟨hlast, hr, ?_⟩
            intro j s hj hs
            rcases (getElem?_snoc_eq_some _ _ _ _).1 hj with hj | ⟨hj, ho⟩
            · have h3 := ((ihs k0 b0 hsel).2.2 j s hj hs).1
              have := Float64.lt_false_of_lt s.Score info.Score b0.Score hlt h3
              exact ⟨this.1, fun _ => this.2⟩
            · simp only [Except.ok.injEq] at ho
              subst ho
              exact ⟨Float64.lt_irrefl _, fun hlt => by omega⟩
          | false =>
            simp only [Bool.false_eq_true, if_false]
            refine ⟨⟨fun h => Option.noConfusion h, fun h => absurd h hmem⟩, ?_⟩
            intro k b hkb
            simp only [Option.some.injEq, Prod.mk.injEq] at hkb
            obtain ⟨rfl, rfl⟩ := hkb
            refine keep k0 b0 hsel (fun s ho hs => ?_)
            simp only [Except.ok.injEq] at ho
            subst ho
            exact hlt

/-- The selection does not look at unreachable entries: two sequences of outcomes that
differ only in entries that are unreachable samples on both sides select the same. -/
theorem FindBest.select_unreachable_irrelevant (os os2 : List Outcome)
    (h : List.Forall₂ (fun o o2 => o = o2 ∨ ∃ s s2, o = Except.ok s ∧ o2 = Except.ok s2 ∧
      s.Reachable = false ∧ s2.Reachable = false) os os2)
    (i : Nat) (best : Option (Nat × LoadInfo)) :
    FindBest.select os i best = FindBest.select os2 i best := by
  induction h generalizing i best with
  | nil => rfl
  | cons ho _ ih =>
    simp only [FindBest.select]
    rcases ho with rfl | ⟨s, s2, rfl, rfl, hs, hs2⟩
    · exact ih _ _
    · simp only [FindBest.step, hs, hs2, Bool.not_false, if_true]
      exact ih _ _

/-! ## Theorems: FindBest -/

theorem FindBest_eq_select {σ : Type} (GetLoad : Sampler σ) (hosts : List String) (w : σ) :
    FindBest GetLoad hosts w =
      (match FindBest.select (sampleAll GetLoad hosts w).1 0 none with
        | none => (Except.error Error.noReachableHosts, (sampleAll GetLoad hosts w).2)
        | some b => (Except.ok b.2, (sampleAll GetLoad hosts w).2)) := by
  unfold FindBest
  rw [FindBest.scan_eq_select]
  cases FindBest.select (sampleAll GetLoad hosts w).1 0 none <;> rfl

theorem FindBestAt_eq_select {σ : Type} (GetLoad : Sampler σ) (hosts : List String) (w : σ) :
    FindBestAt GetLoad hosts w =
      (match FindBest.select (sampleAll GetLoad hosts w).1 0 none with
        | none => (Except.error Error.noReachableHosts, (sampleAll GetLoad hosts w).2)
        | some b => (Except.ok b, (sampleAll GetLoad hosts w).2)) := by
  unfold FindBestAt
  rw [FindBest.scan_eq_select]
  cases FindBest.select (sampleAll GetLoad hosts w).1 0 none <;> rfl

/-- C1 (as stated, refuted): on the sequence `[{host1, NaN, reachable}, {host2, 10.0,
reachable}]` `FindBest` returns `host1`, whose score is not less than or equal to the
score of the reachable sample `host2`. -/
theorem FindBest_minimum_fails_on_NaN :
    (sampleAll replay ["host1", "host2"] nanFirst).1 = nanFirst ∧
    (FindBest replay ["host1", "host2"] nanFirst).1 = Except.ok (sample "host1" fNaN true) ∧
    Except.ok (sample "host2" f10 true) ∈ nanFirst ∧
    (sample "host2" f10 true).Reachable = true ∧
    (sample "host1" fNaN true).Score.le (sample "host2" f10 true).Score = false := by
  refine ⟨rfl, rfl, ?_, rfl, by decide⟩
  simp [nanFirst]

/-- C1 (amended): for every sequence of sampling outcomes that contains at least one
reachable sample, `FindBest` returns a reachable sample of the sequence such that no
reachable sample has a strictly smaller score; when no reachable sample has a NaN
score, the returned score is less than or equal to the score of every reachable
sample.  Unreachable entries never take part in the comparison: a run whose outcomes
differ only in entries that are unreachable on both sides returns the same result. -/
theorem FindBest_reachable_minimum {σ : Type} (GetLoad : Sampler σ) (hosts : List String)
    (w : σ)
    (h : ∃ s, Except.ok s ∈ (sampleAll GetLoad hosts w).1 ∧ s.Reachable = true) :
    (∃ b, (FindBest GetLoad hosts w).1 = Except.ok b ∧
      Except.ok b ∈ (sampleAll GetLoad hosts w).1 ∧ b.Reachable = true ∧
      (∀ s, Except.ok s ∈ (sampleAll GetLoad hosts w).1 → s.Reachable = true →
        s.Score.lt b.Score = false) ∧
      ((∀ s, Except.ok s ∈ (sampleAll GetLoad hosts w).1 → s.Reachable = true →
          s.Score.isNaN = false) →
        ∀ s, Except.ok s ∈ (sampleAll GetLoad hosts w).1 → s.Reachable = true →
          b.Score.le s.Score = true)) ∧
    ∀ (σ2 : Type) (GetLoad2 : Sampler σ2) (w2 : σ2),
      List.Forall₂ (fun o o2 => o = o2 ∨ ∃ s s2, o = Except.ok s ∧ o2 = Except.ok s2 ∧
          s.Reachable = false ∧ s2.Reachable = false)
        (sampleAll GetLoad hosts w).1 (sampleAll GetLoad2 hosts w2).1 →
      (FindBest GetLoad2 hosts w2).1 = (FindBest GetLoad hosts w).1 := by
  obtain ⟨hnone, hsome⟩ := FindBest.select_invariant (sampleAll GetLoad hosts w).1
  refine ⟨?_, ?_⟩
  · rw [FindBest_eq_select]
    cases hsel : FindBest.select (sampleAll GetLoad hosts w).1 0 none with
    | none =>
      obtain ⟨s, hs, hr⟩ := h
      have := hnone.1 hsel s hs
      rw [hr] at this; cases this
    | some kb =>
      obtain ⟨k, b⟩ := kb
      obtain ⟨h1, h2, h3⟩ := hsome k b hsel
      have hmin : ∀ s, Except.ok s ∈ (sampleAll GetLoad hosts w).1 → s.Reachable = true →
          s.Score.lt b.Score = false := by
        intro s hs hr
        obtain ⟨j, hj⟩ := List.mem_iff_getElem?.1 hs
        exact (h3 j s hj hr).1
      refine ⟨b, rfl, List.getElem?_mem h1, h2, hmin, ?_⟩
      intro hnan s hs hr
      exact Float64.le_of_not_lt s.Score b.Score (hnan s hs hr)
        (hnan b (List.getElem?_mem h1) h2) (hmin s hs hr)
  · intro σ2 GetLoad2 w2 hrel
    rw [FindBest_eq_select, FindBest_eq_select,
      FindBest.select_unreachable_irrelevant _ _ hrel 0 none]
    cases FindBest.select (sampleAll GetLoad2 hosts w2).1 0 none <;> rfl

/-- Witness for C1 (amended): the test case "skip unreachable hosts",
`[{host1, 10.0, unreachable}, {host2, 50.0, reachable}, {host3, 5.0, unreachable}]`,
selects `host2`. -/
theorem FindBest_reachable_minimum_witness :
    (∃ s, Except.ok s ∈ (sampleAll replay ["host1", "host2", "host3"] skipUnreachable).1 ∧
      s.Reachable = true) ∧
    (FindBest replay ["host1", "host2", "host3"] skipUnreachable).1 =
      Except.ok (sample "host2" f50 true) ∧
    ∃ b, (FindBest replay ["host1", "host2", "host3"] skipUnreachable).1 = Except.ok b ∧
      b.Reachable = true ∧
      ∀ s, Except.ok s ∈ (sampleAll replay ["host1", "host2", "host3"] skipUnreachable).1 →
        s.Reachable = true → s.Score.lt b.Score = false :=
  have hex : ∃ s, Except.ok s ∈
      (sampleAll replay ["host1", "host2", "host3"] skipUnreachable).1 ∧ s.Reachable = true :=
    ⟨sample "host2" f50 true, by simp [sampleAll, replay, skipUnreachable], rfl⟩
  ⟨hex, rfl, (FindBest_reachable_minimum replay _ _ hex).1.imp
    (fun _ hb => ⟨hb.1, hb.2.2.1, hb.2.2.2.1⟩)⟩

/-- C2: when `FindBest` returns a sample, that sample was produced by some iteration
`i` of the scan, and no reachable sample of an earlier iteration `j < i` has a score
less than or equal to the returned score: on exact ties the earliest host wins. -/
theorem FindBest_tie_goes_to_first {σ : Type} (GetLoad : Sampler σ) (hosts : List String)
    (w : σ) (b : LoadInfo) (h : (FindBest GetLoad hosts w).1 = Except.ok b) :
    ∃ i, (FindBestAt GetLoad hosts w).1 = Except.ok (i, b) ∧
      (sampleAll GetLoad hosts w).1[i]? = some (Except.ok b) ∧
      ∀ j s, j < i → (sampleAll GetLoad hosts w).1[j]? = some (Except.ok s) →
        s.Reachable = true → s.Score.le b.Score = false := by
  obtain ⟨-, hsome⟩ := FindBest.select_invariant (sampleAll GetLoad hosts w).1
  rw [FindBest_eq_select] at h
  rw [FindBestAt_eq_select]
  cases hsel : FindBest.select (sampleAll GetLoad hosts w).1 0 none with
  | none => rw [hsel] at h; cases h
  | some kb =>
    obtain ⟨k, b0⟩ := kb
    rw [hsel] at h
    simp only [Except.ok.injEq] at h
    subst h
    obtain ⟨h1, -, h3⟩ := hsome k b0 hsel
    exact ⟨k, rfl, h1, fun j s hj hs hr => (h3 j s hs hr).2 hj⟩

/-- Witness for C2: after a host at `50.0`, two hosts tied at `30.0`: the first of the
two is returned. -/
theorem FindBest_tie_goes_to_first_witness :
    (FindBest replay ["host1", "host2", "host3"] tiedAfterFirst).1 =
      Except.ok (sample "host2" f30 true) ∧
    ∃ i, (FindBestAt replay ["host1", "host2", "host3"] tiedAfterFirst).1 =
        Except.ok (i, sample "host2" f30 true) ∧
      (sampleAll replay ["host1", "host2", "host3"] tiedAfterFirst).1[i]? =
        some (Except.ok (sample "host2" f30 true)) ∧
      ∀ j s, j < i →
        (sampleAll replay ["host1", "host2", "host3"] tiedAfterFirst).1[j]? =
          some (Except.ok s) →
        s.Reachable = true → s.Score.le (sample "host2" f30 true).Score = false :=
  ⟨rfl, FindBest_tie_goes_to_first replay _ _ _ rfl⟩

/-- C3: when every sample of the sequence is unreachable, `FindBest` fails with the
error `no reachable hosts found` and returns no sample. -/
theorem FindBest_all_unreachable {σ : Type} (GetLoad : Sampler σ) (hosts : List String)
    (w : σ)
    (h : ∀ s, Except.ok s ∈ (sampleAll GetLoad hosts w).1 → s.Reachable = false) :
    (FindBest GetLoad hosts w).1 = Except.error Error.noReachableHosts := by
  rw [FindBest_eq_select, (FindBest.select_invariant (sampleAll GetLoad hosts w).1).1.2 h]

/-- Witness for C3: the test case "all hosts unreachable". -/
theorem FindBest_all_unreachable_witness :
    (∀ s, Except.ok s ∈ (sampleAll replay ["host1", "host2"] allUnreachable).1 →
      s.Reachable = false) ∧
    (FindBest replay ["host1", "host2"] allUnreachable).1 =
      Except.error Error.noReachableHosts :=
  have hall : ∀ s, Except.ok s ∈ (sampleAll replay ["host1", "host2"] allUnreachable).1 →
      s.Reachable = false := by
    intro s hs
    simp only [sampleAll, replay, allUnreachable, List.mem_cons, Except.ok.injEq,
      List.mem_nil_iff, or_false] at hs
    rcases hs with hs | hs <;> rw [hs] <;> rfl
  ⟨hall, FindBest_all_unreachable replay _ _ hall⟩

theorem FindBest.scan_degrade {σ : Type} (GetLoad : Sampler σ) (hosts : List String)
    (i : Nat) (best : Option (Nat × LoadInfo)) (w : σ) :
    FindBest.scan (degrade GetLoad) hosts i best w = FindBest.scan GetLoad hosts i best w := by
  induction hosts generalizing i best w with
  | nil => rfl
  | cons host rest ih =>
    simp only [FindBest.scan]
    have h1 : (degrade GetLoad host w).2 = (GetLoad host w).2 := by
      unfold degrade
      rcases GetLoad host w with ⟨o, w1⟩
      cases o <;> rfl
    have h2 : FindBest.step best i (degrade GetLoad host w).1 =
        FindBest.step best i (GetLoad host w).1 := by
      unfold degrade
      rcases GetLoad host w with ⟨o, w1⟩
      cases o <;> rfl
    rw [h1, h2, ih]

theorem sampleAll_length {σ : Type} (GetLoad : Sampler σ) (hosts : List String) (w : σ) :
    (sampleAll GetLoad hosts w).1.length = hosts.length := by
  induction hosts generalizing w with
  | nil => rfl
  | cons host rest ih => simp only [sampleAll, List.length_cons, ih]

/-- C4: a sampling failure is treated exactly like an unreachable host and never
aborts the scan.  Replacing every failed outcome by an unreachable sample leaves the
result of `FindBest` (and the world it leaves behind) unchanged; the sampler is called
once for every host, whatever the earlier outcomes; and every reachable sample of the
whole sequence, those after a failed call included, is compared: as soon as there is
one, `FindBest` returns a reachable sample of the sequence that it does not beat. -/
theorem FindBest_failure_as_unreachable {σ : Type} (GetLoad : Sampler σ)
    (hosts : List String) (w : σ) :
    FindBest (degrade GetLoad) hosts w = FindBest GetLoad hosts w ∧
    (FindBest GetLoad hosts w).2 = (sampleAll GetLoad hosts w).2 ∧
    (sampleAll GetLoad hosts w).1.length = hosts.length ∧
    (∀ b, (FindBest GetLoad hosts w).1 = Except.ok b →
      ∀ s, Except.ok s ∈ (sampleAll GetLoad hosts w).1 → s.Reachable = true →
        s.Score.lt b.Score = false) ∧
    ∀ s, Except.ok s ∈ (sampleAll GetLoad hosts w).1 → s.Reachable = true →
      ∃ b, (FindBest GetLoad hosts w).1 = Except.ok b ∧
        Except.ok b ∈ (sampleAll GetLoad hosts w).1 ∧ b.Reachable = true ∧
        s.Score.lt b.Score = false := by
  refine ⟨?_, ?_, sampleAll_length GetLoad hosts w, ?_, ?_⟩
  · unfold FindBest
    rw [FindBest.scan_degrade]
  · rw [FindBest_eq_select]
    cases FindBest.select (sampleAll GetLoad hosts w).1 0 none <;> rfl
  · intro b hb s hs hr
    obtain ⟨-, hsome⟩ := FindBest.select_invariant (sampleAll GetLoad hosts w).1
    rw [FindBest_eq_select] at hb
    cases hsel : FindBest.select (sampleAll GetLoad hosts w).1 0 none with
    | none => rw [hsel] at hb; cases hb
    | some kb =>
      obtain ⟨k, b0⟩ := kb
      rw [hsel] at hb
      simp only [Except.ok.injEq] at hb
      subst hb
      obtain ⟨j, hj⟩ := List.mem_iff_getElem?.1 hs
      exact ((hsome k b0 hsel).2.2 j s hj hr).1
  · intro s hs hr
    obtain ⟨hnone, hsome⟩ := FindBest.select_invariant (sampleAll GetLoad hosts w).1
    rw [FindBest_eq_select]
    cases hsel : FindBest.select (sampleAll GetLoad hosts w).1 0 none with
    | none =>
      have := hnone.1 hsel s hs
      rw [hr] at this; cases this
    | some kb =>
      obtain ⟨k, b0⟩ := kb
      obtain ⟨h1, h2, h3⟩ := hsome k b0 hsel
      obtain ⟨j, hj⟩ := List.mem_iff_getElem?.1 hs
      exact ⟨b0, rfl, List.getElem?_mem h1, h2, (h3 j s hj hr).1⟩

/-- Witness for C4: the call for `host1` fails, `host2` is reachable at `10.0`:
`host2` is still sampled and is returned. -/
theorem FindBest_failure_as_unreachable_witness :
    (sampleAll replay ["host1", "host2"] failThenReachable).1 = failThenReachable ∧
    (FindBest replay ["host1", "host2"] failThenReachable).1 =
      Except.ok (sample "host2" f10 true) ∧
    ∃ b, (FindBest replay ["host1", "host2"] failThenReachable).1 = Except.ok b ∧
      Except.ok b ∈ (sampleAll replay ["host1", "host2"] failThenReachable).1 ∧
      b.Reachable = true ∧ (sample "host2" f10 true).Score.lt b.Score = false :=
  ⟨rfl, rfl,
    (FindBest_failure_as_unreachable replay ["host1", "host2"] failThenReachable).2.2.2.2
      (sample "host2" f10 true) (by simp [sampleAll, replay, failThenReachable]) rfl⟩

/-! ## Theorems: text and numerals -/

theorem Split_ne_nil (sep : Char) (s : List Char) : Split sep s ≠ [] := by
  induction s with
  | nil => simp [Split]
  | cons c cs ih =>
    unfold Split
    split
    · simp
    · split
      · contradiction
      · simp

theorem Split_no_sep (sep : Char) (s : List Char) (h : sep ∉ s) : Split sep s = [s] := by
  induction s with
  | nil => rfl
  | cons c cs ih =>
    have hc : c ≠ sep := fun hc => h (hc ▸ List.mem_cons_self _ _)
    have hcs : sep ∉ cs := fun hcs => h (List.mem_cons_of_mem _ hcs)
    simp only [Split, hc, if_false, ih hcs]

theorem Split_field (sep : Char) (a rest : List Char) (h : sep ∉ a) :
    Split sep (a ++ sep :: rest) = a :: Split sep rest := by
  induction a with
  | nil => simp [Split]
  | cons c cs ih =>
    have hc : c ≠ sep := fun hc => h (hc ▸ List.mem_cons_self _ _)
    have hcs : sep ∉ cs := fun hcs => h (List.mem_cons_of_mem _ hcs)
    rw [List.cons_append]
    simp only [Split, hc, if_false]
    rw [ih hcs]

theorem digitChar_toNat (d : Nat) (h : d < 10) : (Nat.digitChar d).toNat = 48 + d := by
  interval_cases d <;> rfl

theorem toDigitsCore_eq (m : Nat) : ∀ (f : Nat) (ds : List Char), m < f →
    Nat.toDigitsCore 10 f m ds = Nat.toDigits 10 m ++ ds := by
  induction m using Nat.strong_induction_on with
  | _ m ih =>
    intro f ds hf
    obtain ⟨f1, rfl⟩ : ∃ f1, f = f1 + 1 := ⟨f - 1, by omega⟩
    unfold Nat.toDigits
    simp only [Nat.toDigitsCore]
    by_cases h0 : m / 10 = 0
    · simp [h0]
    · simp only [h0, if_false]
      have hlt : m / 10 < m := by omega
      rw [ih (m / 10) hlt f1 _ (by omega), ih (m / 10) hlt m _ hlt]
      simp

theorem toDigits_small (m : Nat) (h : m < 10) : Nat.toDigits 10 m = [Nat.digitChar m] := by
  unfold Nat.toDigits
  simp only [Nat.toDigitsCore]
  have h0 : m / 10 = 0 := by omega
  have h1 : m % 10 = m := by omega
  simp [h0, h1]

theorem toDigits_large (m : Nat) (h : 10 ≤ m) :
    Nat.toDigits 10 m = Nat.toDigits 10 (m / 10) ++ [Nat.digitChar (m % 10)] := by
  conv_lhs => unfold Nat.toDigits
  simp only [Nat.toDigitsCore]
  have h0 : m / 10 ≠ 0 := by omega
  simp only [h0, if_false]
  exact toDigitsCore_eq (m / 10) m _ (by omega)

/-- The decimal digits of `m` are digit characters and read back as `m`. -/
theorem toDigits_value (m : Nat) :
    (∀ c ∈ Nat.toDigits 10 m, 48 ≤ c.toNat ∧ c.toNat ≤ 57) ∧
    (Nat.toDigits 10 m).foldl (fun n c => n * 10 + (c.toNat - 48)) 0 = m ∧
    Nat.toDigits 10 m ≠ [] := by
  induction m using Nat.strong_induction_on with
  | _ m ih =>
    rcases Nat.lt_or_ge m 10 with h | h
    · rw [toDigits_small m h]
      have := digitChar_toNat m h
      refine ⟨?_, ?_, by simp⟩
      · intro c hc
        simp only [List.mem_singleton] at hc
        subst hc
        omega
      · simp only [List.foldl_cons, List.foldl_nil]
        omega
    · rw [toDigits_large m h]
      obtain ⟨h1, h2, -⟩ := ih (m / 10) (by omega)
      have := digitChar_toNat (m % 10) (Nat.mod_lt _ (by decide))
      refine ⟨?_, ?_, by simp⟩
      · intro c hc
        rcases List.mem_append.1 hc with hc | hc
        · exact h1 c hc
        · simp only [List.mem_singleton] at hc
          subst hc
          omega
      · rw [List.foldl_append, h2]
        simp only [List.foldl_cons, List.foldl_nil]
        omega

theorem foldl_digits_le (cs : List Char) (n : Nat) :
    n ≤ cs.foldl (fun n c => n * 10 + (c.toNat - 48)) n := by
  induction cs generalizing n with
  | nil => exact Nat.le_refl _
  | cons c cs ih =>
    simp only [List.foldl_cons]
    exact Nat.le_trans (by omega) (ih _)

theorem ParseUint.loop_digits (cs : List Char) (n : Nat)
    (hd : ∀ c ∈ cs, 48 ≤ c.toNat ∧ c.toNat ≤ 57)
    (hv : cs.foldl (fun n c => n * 10 + (c.toNat - 48)) n ≤ maxUint64) :
    ParseUint.loop cs n = (cs.foldl (fun n c => n * 10 + (c.toNat - 48)) n, none) := by
  induction cs generalizing n with
  | nil => rfl
  | cons c cs ih =>
    have hc := hd c (List.mem_cons_self _ _)
    simp only [List.foldl_cons] at hv ⊢
    have hle := foldl_digits_le cs (n * 10 + (c.toNat - 48))
    have hmax : maxUint64 = 18446744073709551615 := by decide
    have h1 : ¬ n ≥ maxUint64 / 10 + 1 := by rw [hmax] at hv ⊢; omega
    have h2 : ¬ n * 10 + (c.toNat - 48) > maxUint64 := by omega
    simp only [ParseUint.loop, hc, and_self, if_true, h1, h2, if_false]
    exact ih _ (fun c hc => hd c (List.mem_cons_of_mem _ hc)) hv

theorem ParseUint_toDigits (m : Nat) (h : m ≤ maxUint64) :
    ParseUint (Nat.toDigits 10 m) = (m, none) := by
  obtain ⟨h1, h2, h3⟩ := toDigits_value m
  unfold ParseUint
  rw [if_neg h3, ParseUint.loop_digits _ _ h1 (by rw [h2]; exact h), h2]

/-- Round trip: `Atoi` reads the decimal numeral of every `int64` back as that integer. -/
theorem Atoi_decimal (n : Int) (hlo : -(2 ^ 63) ≤ n) (hhi : n < 2 ^ 63) :
    Atoi (decimal n) = (n, none) := by
  have hmax : maxUint64 = 18446744073709551615 := by decide
  cases n with
  | ofNat m =>
    have hm : m < 2 ^ 63 := by
      simp only [Int.ofNat_eq_coe] at hhi
      omega
    obtain ⟨h1, -, h3⟩ := toDigits_value m
    have hp := ParseUint_toDigits m (by rw [hmax]; omega)
    have hdec : decimal (Int.ofNat m) = Nat.toDigits 10 m := rfl
    rw [hdec]
    cases hds : Nat.toDigits 10 m with
    | nil => exact absurd hds h3
    | cons c cs =>
      have hc := h1 c (by rw [hds]; exact List.mem_cons_self _ _)
      have hplus : c ≠ '+' := by intro h; rw [h] at hc; revert hc; decide
      have hminus : c ≠ '-' := by intro h; rw [h] at hc; revert hc; decide
      rw [hds] at hp
      have : ¬ m ≥ 2 ^ 63 := by omega
      unfold Atoi ParseInt
      simp only [hplus, hminus, or_self, if_false, hp]
      simp
      omega
  | negSucc m =>
    have hm : m + 1 ≤ 2 ^ 63 := by
      have : -(2 ^ 63 : Int) ≤ -((m : Int) + 1) := by
        rw [Int.negSucc_eq] at hlo; exact hlo
      omega
    have hp := ParseUint_toDigits (m + 1) (by rw [hmax]; omega)
    have hdec : decimal (Int.negSucc m) = '-' :: Nat.toDigits 10 (m + 1) := rfl
    rw [hdec]
    unfold Atoi ParseInt
    have : ¬ m + 1 > 2 ^ 63 := by omega
    simp only [or_true, if_true, hp]
    simp [Int.negSucc_eq]
    omega

theorem ParseUint.loop_overflow (cs : List Char) (n : Nat)
    (hd : ∀ c ∈ cs, 48 ≤ c.toNat ∧ c.toNat ≤ 57) (hn : n ≤ maxUint64)
    (hv : maxUint64 < cs.foldl (fun n c => n * 10 + (c.toNat - 48)) n) :
    ParseUint.loop cs n = (maxUint64, some NumError.ErrRange) := by
  induction cs generalizing n with
  | nil =>
    simp only [List.foldl_nil] at hv
    omega
  | cons c cs ih =>
    have hc := hd c (List.mem_cons_self _ _)
    simp only [List.foldl_cons] at hv
    simp only [ParseUint.loop, hc, and_self, if_true]
    by_cases h1 : n ≥ maxUint64 / 10 + 1
    · rw [if_pos h1]
    · rw [if_neg h1]
      by_cases h2 : n * 10 + (c.toNat - 48) > maxUint64
      · rw [if_pos h2]
      · rw [if_neg h2]
        exact ih _ (fun c hc => hd c (List.mem_cons_of_mem _ hc)) (by omega) hv

theorem ParseUint_toDigits_overflow (m : Nat) (h : maxUint64 < m) :
    ParseUint (Nat.toDigits 10 m) = (maxUint64, some NumError.ErrRange) := by
  obtain ⟨h1, h2, h3⟩ := toDigits_value m
  unfold ParseUint
  rw [if_neg h3]
  exact ParseUint.loop_overflow _ 0 h1 (Nat.zero_le _) (by rw [h2]; exact h)

/-- On the decimal numeral of any integer `Atoi` returns the nearest 64-bit integer,
with a range error exactly when that is not the integer itself. -/
theorem Atoi_decimal_clamp (n : Int) :
    Atoi (decimal n) =
      (clampInt64 n,
        if -(2 ^ 63) ≤ n ∧ n < 2 ^ 63 then none else some NumError.ErrRange) := by
  have hmax : maxUint64 = 18446744073709551615 := by decide
  by_cases hin : -(2 ^ 63) ≤ n ∧ n < 2 ^ 63
  · rw [Atoi_decimal n hin.1 hin.2, if_pos hin]
    unfold clampInt64
    rw [if_neg (by omega), if_neg (by omega)]
  · rw [if_neg hin]
    cases n with
    | ofNat m =>
      have hm : 2 ^ 63 ≤ m := by
        simp only [Int.ofNat_eq_coe] at hin
        omega
      have hclamp : clampInt64 (Int.ofNat m) = 2 ^ 63 - 1 := by
        unfold clampInt64
        simp only [Int.ofNat_eq_coe]
        rw [if_neg (by omega), if_pos (by omega)]
      rw [hclamp]
      obtain ⟨h1, -, h3⟩ := toDigits_value m
      have hdec : decimal (Int.ofNat m) = Nat.toDigits 10 m := rfl
      rw [hdec]
      have hp : ∃ un e, ParseUint (Nat.toDigits 10 m) = (un, e) ∧ 2 ^ 63 ≤ un ∧
          e ≠ some NumError.ErrSyntax := by
        by_cases hle : m ≤ maxUint64
        · exact ⟨m, none, ParseUint_toDigits m hle, hm, by simp⟩
        · exact ⟨maxUint64, some NumError.ErrRange,
            ParseUint_toDigits_overflow m (by omega), by rw [hmax]; omega, by simp⟩
      obtain ⟨un, e, hpe, hun, he⟩ := hp
      cases hds : Nat.toDigits 10 m with
      | nil => exact absurd hds h3
      | cons c cs =>
        have hc := h1 c (by rw [hds]; exact List.mem_cons_self _ _)
        have hplus : c ≠ '+' := by intro h; rw [h] at hc; revert hc; decide
        have hminus : c ≠ '-' := by intro h; rw [h] at hc; revert hc; decide
        rw [hds] at hpe
        unfold Atoi ParseInt
        simp only [hplus, hminus, or_self, if_false, hpe]
        cases e with
        | none => simp; omega
        | some k =>
          cases k with
          | ErrSyntax => exact absurd rfl he
          | ErrRange => simp; omega
    | negSucc m =>
      have hm : 2 ^ 63 < m + 1 := by
        have h1 : ¬ (-(2 ^ 63 : Int) ≤ -((m : Int) + 1)) := by
          intro h
          apply hin
          rw [Int.negSucc_eq]
          exact ⟨h, by omega⟩
        omega
      have hclamp : clampInt64 (Int.negSucc m) = -(2 ^ 63) := by
        unfold clampInt64
        rw [Int.negSucc_eq, if_pos (by omega)]
      rw [hclamp]
      have hdec : decimal (Int.negSucc m) = '-' :: Nat.toDigits 10 (m + 1) := rfl
      rw [hdec]
      have hp : ∃ un e, ParseUint (Nat.toDigits 10 (m + 1)) = (un, e) ∧ 2 ^ 63 < un ∧
          e ≠ some NumError.ErrSyntax := by
        by_cases hle : m + 1 ≤ maxUint64
        · exact ⟨m + 1, none, ParseUint_toDigits (m + 1) hle, hm, by simp⟩
        · exact ⟨maxUint64, some NumError.ErrRange,
            ParseUint_toDigits_overflow (m + 1) (by omega), by rw [hmax]; omega, by simp⟩
      obtain ⟨un, e, hpe, hun, he⟩ := hp
      unfold Atoi ParseInt
      simp only [or_true, if_true, hpe]
      cases e with
      | none => simp; omega
      | some k =>
        cases k with
        | ErrSyntax => exact absurd rfl he
        | ErrRange => simp; omega

theorem decimal_no_bar (n : Int) : '|' ∉ decimal n := by
  have hdig : ∀ m, '|' ∉ Nat.toDigits 10 m := by
    intro m h
    have := (toDigits_value m).1 _ h
    revert this; decide
  cases n with
  | ofNat m => exact hdig m
  | negSucc m =>
    intro h
    rcases List.mem_cons.1 h with h | h
    · revert h; decide
    · exact hdig _ h

theorem Atoi_error_value (x : List Char) :
    ((Atoi x).2 = some NumError.ErrSyntax → (Atoi x).1 = 0) ∧
    ((Atoi x).2 = some NumError.ErrRange →
      (Atoi x).1 = 2 ^ 63 - 1 ∨ (Atoi x).1 = -(2 ^ 63)) := by
  unfold Atoi ParseInt
  cases x with
  | nil => simp
  | cons c cs =>
    simp only
    split
    · simp
    · split_ifs <;> simp

/-- The value `Atoi` returns with a range error is fixed by the sign of the text: the
lower bound of `int64` after a leading `-`, the upper bound otherwise. -/
theorem Atoi_range_sign (x : List Char) (h : (Atoi x).2 = some NumError.ErrRange) :
    (x.head? = some '-' ∧ (Atoi x).1 = -(2 ^ 63)) ∨
    (x.head? ≠ some '-' ∧ (Atoi x).1 = 2 ^ 63 - 1) := by
  unfold Atoi ParseInt at h ⊢
  cases x with
  | nil => simp at h
  | cons c cs =>
    simp only at h ⊢
    split at h
    · simp at h
    · rename_i un e hne heq
      simp only [List.head?_cons, Option.some.injEq]
      by_cases hc : c = '-'
      · subst hc
        left
        refine ⟨rfl, ?_⟩
        simp only [decide_True, Bool.not_true, Bool.false_and, Bool.false_eq_true,
          if_false, Bool.true_and, decide_eq_true_eq] at h ⊢
        split_ifs at h ⊢ with h1
        all_goals rfl
      · right
        refine ⟨fun hh => hc (Option.some.inj hh), ?_⟩
        simp only [hc, decide_False, Bool.not_false, Bool.true_and, Bool.false_and,
          Bool.false_eq_true, if_false, decide_eq_true_eq] at h ⊢
        split_ifs at h ⊢ with h1
        all_goals rfl

theorem Split_length (sep : Char) (s : List Char) :
    (Split sep s).length = s.count sep + 1 := by
  induction s with
  | nil => rfl
  | cons c cs ih =>
    unfold Split
    by_cases hc : c = sep
    · subst hc
      simp [ih]
    · have hne : (c == sep) = false := by simpa using hc
      rw [if_neg hc, List.count_cons, hne]
      cases hs : Split sep cs with
      | nil => exact absurd hs (Split_ne_nil sep cs)
      | cons field fields =>
        rw [hs] at ih
        simpa using ih

/-! ## Theorems: GetLoad -/

theorem GetLoad.parse_fields (pf : List Char → Float64 × Option NumError) (host : String)
    (output a b c d e : List Char) (h : Split '|' (TrimSpace output) = [a, b, c, d, e]) :
    GetLoad.parse pf host output =
      Except.ok ⟨host, (pf a).1, (Atoi b).1, (Atoi c).1, (Atoi d).1, (pf e).1, true⟩ := by
  simp [GetLoad.parse, h]

theorem GetLoad_unreachable {σ : Type} (R : Remote σ) (host : String) (w : σ)
    (h : (R.CheckReachable host w).1 = false) :
    GetLoad R host w =
      (Except.ok ⟨host, Float64.zero, 0, 0, 0, Float64.zero, false⟩,
        (R.CheckReachable host w).2) := by
  unfold GetLoad
  rcases hp : R.CheckReachable host w with ⟨r, w1⟩
  rw [hp] at h
  simp only at h
  subst h
  rfl

theorem GetLoad_call_failed {σ : Type} (R : Remote σ) (host : String) (w : σ) (err : String)
    (h : (R.CheckReachable host w).1 = true)
    (ho : (R.Output host (R.CheckReachable host w).2).1 = Except.error err) :
    (GetLoad R host w).1 = Except.error (Error.getLoadFailed err) := by
  unfold GetLoad
  rcases hp : R.CheckReachable host w with ⟨r, w1⟩
  rw [hp] at h ho
  simp only at h ho
  subst h
  rcases hq : R.Output host w1 with ⟨o, w2⟩
  rw [hq] at ho
  simp only at ho
  subst ho
  simp only [hq]

theorem GetLoad_call_ok {σ : Type} (R : Remote σ) (host : String) (w : σ)
    (output : List Char) (h : (R.CheckReachable host w).1 = true)
    (ho : (R.Output host (R.CheckReachable host w).2).1 = Except.ok output) :
    (GetLoad R host w).1 = GetLoad.parse R.ParseFloat host output := by
  unfold GetLoad
  rcases hp : R.CheckReachable host w with ⟨r, w1⟩
  rw [hp] at h ho
  simp only at h ho
  subst h
  rcases hq : R.Output host w1 with ⟨o, w2⟩
  rw [hq] at ho
  simp only at ho
  subst ho
  simp only [hq]

/-- C5 (as stated, refuted): the line `0.52|4|13||` has five fields, two of which are
empty and so are not numbers (`Atoi` rejects the empty text); whatever
`ParseFloat` does, the parsing step returns a reachable sample, with 0 for the
memory percentage, and no error. -/
theorem GetLoad_parse_keeps_unparsable_line :
    Split '|' (TrimSpace "0.52|4|13||\n".toList) =
      ["0.52".toList, "4".toList, "13".toList, [], []] ∧
    Atoi [] = (0, some NumError.ErrSyntax) ∧
    ∀ pf : List Char → Float64 × Option NumError,
      GetLoad.parse pf "host1" "0.52|4|13||\n".toList =
        Except.ok ⟨"host1", (pf "0.52".toList).1, 4, 13, 0, (pf []).1, true⟩ :=
  ⟨by decide, by decide, fun _ => rfl⟩

/-- C5 (amended): for every five-field sample line the parsing step returns a reachable
sample and no error, whether or not the fields are numbers: each field of the sample
is the value its conversion returns, the error of the conversion being discarded.
For an integer field that value is 0 on a syntax error; on a range error it is the
lower bound of `int64` when the field begins with `-` and the upper bound otherwise,
which for the decimal numeral of an integer outside `int64` is the nearest bound. -/
theorem GetLoad_parse_five_fields (pf : List Char → Float64 × Option NumError)
    (host : String) (output a b c d e : List Char)
    (h : Split '|' (TrimSpace output) = [a, b, c, d, e]) :
    GetLoad.parse pf host output =
      Except.ok ⟨host, (pf a).1, (Atoi b).1, (Atoi c).1, (Atoi d).1, (pf e).1, true⟩ ∧
    (∀ x ∈ [b, c, d],
      ((Atoi x).2 = some NumError.ErrSyntax → (Atoi x).1 = 0) ∧
      ((Atoi x).2 = some NumError.ErrRange →
        (x.head? = some '-' ∧ (Atoi x).1 = -(2 ^ 63)) ∨
        (x.head? ≠ some '-' ∧ (Atoi x).1 = 2 ^ 63 - 1))) ∧
    ∀ n : Int, ¬ (-(2 ^ 63) ≤ n ∧ n < 2 ^ 63) →
      Atoi (decimal n) = (clampInt64 n, some NumError.ErrRange) ∧
      (n < -(2 ^ 63) → clampInt64 n = -(2 ^ 63)) ∧
      (2 ^ 63 ≤ n → clampInt64 n = 2 ^ 63 - 1) := by
  refine ⟨GetLoad.parse_fields pf host output a b c d e h,
    fun x _ => ⟨(Atoi_error_value x).1, Atoi_range_sign x⟩, fun n hn => ⟨?_, ?_, ?_⟩⟩
  · rw [Atoi_decimal_clamp n, if_neg hn]
  · intro hlt
    unfold clampInt64
    rw [if_pos hlt]
  · intro hge
    unfold clampInt64
    rw [if_neg (by omega), if_pos hge]

/-- Witness for C5 (amended): the line
`2.50|99999999999999999999|abc|-9223372036854775809|187.00`, whose second and fourth
fields are out of range and whose third field is not a number. -/
theorem GetLoad_parse_five_fields_witness :
    GetLoad.parse parseFloatTable "host1"
        "2.50|99999999999999999999|abc|-9223372036854775809|187.00\n".toList =
      Except.ok ⟨"host1", ⟨0x4004000000000000⟩, 9223372036854775807, 0,
        -9223372036854775808, ⟨0x4067600000000000⟩, true⟩ ∧
    Atoi "99999999999999999999".toList = (9223372036854775807, some NumError.ErrRange) ∧
    Atoi "abc".toList = (0, some NumError.ErrSyntax) ∧
    Atoi "-9223372036854775809".toList = (-9223372036854775808, some NumError.ErrRange) :=
  ⟨(GetLoad_parse_five_fields parseFloatTable "host1"
      "2.50|99999999999999999999|abc|-9223372036854775809|187.00\n".toList
      "2.50".toList "99999999999999999999".toList "abc".toList
      "-9223372036854775809".toList "187.00".toList (by decide)).1,
    by decide, by decide, by decide⟩

/-- C6: when the trimmed remote output does not split on `|` into exactly five fields,
the parsing step fails with `unexpected output format` and returns no sample, and so
does `GetLoad` on a reachable host whose inspection call printed that output. -/
theorem GetLoad_parse_field_count (pf : List Char → Float64 × Option NumError)
    (host : String) (output : List Char)
    (h : (Split '|' (TrimSpace output)).length ≠ 5) :
    GetLoad.parse pf host output = Except.error Error.unexpectedFormat ∧
    ∀ (σ : Type) (R : Remote σ) (w : σ), (R.CheckReachable host w).1 = true →
      (R.Output host (R.CheckReachable host w).2).1 = Except.ok output →
      (GetLoad R host w).1 = Except.error Error.unexpectedFormat := by
  have hp : ∀ pf, GetLoad.parse pf host output = Except.error Error.unexpectedFormat := by
    intro pf
    simp [GetLoad.parse, h]
  refine ⟨hp pf, ?_⟩
  intro σ R w hr ho
  rw [GetLoad_call_ok R host w output hr ho]
  exact hp _

/-- Witness for C6: the output `0.52|4|13`, three fields. -/
theorem GetLoad_parse_field_count_witness :
    (Split '|' (TrimSpace "0.52|4|13\n".toList)).length = 3 ∧
    GetLoad.parse parseFloatTable "host1" "0.52|4|13\n".toList =
      Except.error Error.unexpectedFormat :=
  ⟨by decide,
    (GetLoad_parse_field_count parseFloatTable "host1" "0.52|4|13\n".toList (by decide)).1⟩

/-- C7 (as stated, refuted): the lines `0|0|0|0|30.0` and `0|0|0|0|50.0` give two
reachable samples with the same CPU and memory percentages, 0 and 0, and different
scores, `30.0` and `50.0`: the score of a sample is no function of its CPU and
memory percentages. -/
theorem GetLoad_parse_score_not_formula :
    GetLoad.parse parseFloatScores "host1" "0|0|0|0|30.0\n".toList =
      Except.ok ⟨"host1", ⟨0⟩, 0, 0, 0, ⟨0x403E000000000000⟩, true⟩ ∧
    GetLoad.parse parseFloatScores "host1" "0|0|0|0|50.0\n".toList =
      Except.ok ⟨"host1", ⟨0⟩, 0, 0, 0, ⟨0x4049000000000000⟩, true⟩ ∧
    Float64.lt ⟨0x403E000000000000⟩ ⟨0x4049000000000000⟩ = true ∧
    ¬ ∃ F : Int → Int → Float64, ∀ (output : List Char) (s : LoadInfo),
      GetLoad.parse parseFloatScores "host1" output = Except.ok s →
      s.Score = F s.CPUPct s.MemPct := by
  refine ⟨rfl, rfl, by decide, ?_⟩
  rintro ⟨F, hF⟩
  have h1 : (⟨0x403E000000000000⟩ : Float64) = F 0 0 :=
    hF "0|0|0|0|30.0\n".toList ⟨"host1", ⟨0⟩, 0, 0, 0, ⟨0x403E000000000000⟩, true⟩ rfl
  have h2 : (⟨0x4049000000000000⟩ : Float64) = F 0 0 :=
    hF "0|0|0|0|50.0\n".toList ⟨"host1", ⟨0⟩, 0, 0, 0, ⟨0x4049000000000000⟩, true⟩ rfl
  exact absurd (h1.trans h2.symm) (by decide)

/-- C7 (amended): every reachable sample the sampler produces comes from a five-field
line, and its score is the value `ParseFloat` reads from the fifth field, while its
CPU and memory percentages are the values `Atoi` reads from the third and the fourth:
the sampler neither computes nor checks the score. -/
theorem GetLoad_score_from_field {σ : Type} (R : Remote σ) (host : String) (w : σ)
    (s : LoadInfo) (h : (GetLoad R host w).1 = Except.ok s) (hr : s.Reachable = true) :
    ∃ output a b c d e,
      (R.Output host (R.CheckReachable host w).2).1 = Except.ok output ∧
      Split '|' (TrimSpace output) = [a, b, c, d, e] ∧
      s.Score = (R.ParseFloat e).1 ∧ s.CPUPct = (Atoi c).1 ∧ s.MemPct = (Atoi d).1 := by
  cases hp : (R.CheckReachable host w).1 with
  | false =>
    rw [GetLoad_unreachable R host w hp] at h
    simp only [Except.ok.injEq] at h
    rw [← h] at hr
    cases hr
  | true =>
    cases ho : (R.Output host (R.CheckReachable host w).2).1 with
    | error err =>
      rw [GetLoad_call_failed R host w err hp ho] at h
      cases h
    | ok output =>
      rw [GetLoad_call_ok R host w output hp ho] at h
      by_cases hlen : (Split '|' (TrimSpace output)).length = 5
      · rcases hparts : Split '|' (TrimSpace output) with
          _ | ⟨a, _ | ⟨b, _ | ⟨c, _ | ⟨d, _ | ⟨e, _ | ⟨f, t⟩⟩⟩⟩⟩⟩
        all_goals rw [hparts] at hlen
        all_goals try (simp at hlen; done)
        rw [GetLoad.parse_fields R.ParseFloat host output a b c d e hparts] at h
        simp only [Except.ok.injEq] at h
        subst h
        exact ⟨output, a, b, c, d, e, rfl, hparts, rfl, rfl, rfl⟩
      · simp [GetLoad.parse, hlen] at h

/-- Witness for C7 (amended): the line `1.00|1|100|10|73.00`. -/
theorem GetLoad_score_from_field_witness :
    (GetLoad scriptedRemote "host1" ()).1 =
      Except.ok ⟨"host1", ⟨0x3FF0000000000000⟩, 1, 100, 10, ⟨0x4052400000000000⟩, true⟩ ∧
    ∃ output a b c d e,
      (scriptedRemote.Output "host1" (scriptedRemote.CheckReachable "host1" ()).2).1 =
        Except.ok output ∧
      Split '|' (TrimSpace output) = [a, b, c, d, e] ∧
      (⟨0x4052400000000000⟩ : Float64) = (scriptedRemote.ParseFloat e).1 ∧
      (100 : Int) = (Atoi c).1 ∧ (10 : Int) = (Atoi d).1 :=
  ⟨rfl, GetLoad_score_from_field scriptedRemote "host1" ()
    ⟨"host1", ⟨0x3FF0000000000000⟩, 1, 100, 10, ⟨0x4052400000000000⟩, true⟩ rfl rfl⟩

/-- C9 (as stated, refuted): the line `2.50|4|9223372036854775808|40|187.00` has five
numeric fields and a CPU percentage above 100, the numeral of `2^63`; the sample
carries `9223372036854775807` instead: the field is not propagated unchanged. -/
theorem GetLoad_parse_clamps_cpuPercent :
    decimal 9223372036854775808 = "9223372036854775808".toList ∧
    GetLoad.parse parseFloatTable "host1"
        "2.50|4|9223372036854775808|40|187.00\n".toList =
      Except.ok ⟨"host1", ⟨0x4004000000000000⟩, 4, 9223372036854775807, 40,
        ⟨0x4067600000000000⟩, true⟩ ∧
    (9223372036854775807 : Int) ≠ 9223372036854775808 :=
  ⟨by decide, rfl, by decide⟩

/-- C9 (amended): for every well-formed sample line `load|cpus|cpuPct|memPct|score`
(after trimming the surrounding white space), the three middle fields being the
decimal numerals of any integers and the outer two being texts `ParseFloat` accepts,
the parsing step returns a reachable sample whose five fields are the values of the
five fields of the line, in that order, an integer outside the 64-bit range being
replaced by the nearest 64-bit integer.  Every integer of the 64-bit range is stored
unchanged: in particular `cpuPct` is not clamped to 100. -/
theorem GetLoad_parse_well_formed (pf : List Char → Float64 × Option NumError)
    (host : String) (output : List Char) (load score : Float64) (cpus cpuPct memPct : Int)
    (a e : List Char)
    (ha : '|' ∉ a) (he : '|' ∉ e)
    (hload : pf a = (load, none)) (hscore : pf e = (score, none))
    (hout : TrimSpace output =
      a ++ '|' :: (decimal cpus ++ '|' :: (decimal cpuPct ++ '|' :: (decimal memPct ++ '|' :: e)))) :
    GetLoad.parse pf host output =
      Except.ok ⟨host, load, clampInt64 cpus, clampInt64 cpuPct, clampInt64 memPct, score,
        true⟩ ∧
    (∀ n : Int, -(2 ^ 63) ≤ n → n < 2 ^ 63 → clampInt64 n = n) ∧
    (∀ n : Int, n < -(2 ^ 63) → clampInt64 n = -(2 ^ 63)) ∧
    (∀ n : Int, 2 ^ 63 ≤ n → clampInt64 n = 2 ^ 63 - 1) := by
  have hsplit : Split '|' (TrimSpace output) =
      [a, decimal cpus, decimal cpuPct, decimal memPct, e] := by
    rw [hout, Split_field _ _ _ ha, Split_field _ _ _ (decimal_no_bar cpus),
      Split_field _ _ _ (decimal_no_bar cpuPct), Split_field _ _ _ (decimal_no_bar memPct),
      Split_no_sep _ _ he]
  refine ⟨?_, ?_, ?_, ?_⟩
  · rw [GetLoad.parse_fields pf host output _ _ _ _ _ hsplit, hload, hscore,
      Atoi_decimal_clamp cpus, Atoi_decimal_clamp cpuPct, Atoi_decimal_clamp memPct]
  · intro n hlo hhi
    unfold clampInt64
    rw [if_neg (by omega), if_neg (by omega)]
  · intro n hlt
    unfold clampInt64
    rw [if_pos hlt]
  · intro n hge
    unfold clampInt64
    rw [if_neg (by omega), if_pos hge]

/-- Witness for C9 (amended): the line `2.50|4|250|40|187.00`, with a CPU percentage of
250, which is stored unchanged. -/
theorem GetLoad_parse_well_formed_witness :
    GetLoad.parse parseFloatTable "host1" "2.50|4|250|40|187.00\n".toList =
      Except.ok ⟨"host1", ⟨0x4004000000000000⟩, 4, 250, 40, ⟨0x4067600000000000⟩, true⟩ :=
  (GetLoad_parse_well_formed parseFloatTable "host1" "2.50|4|250|40|187.00\n".toList
    ⟨0x4004000000000000⟩ ⟨0x4067600000000000⟩ 4 250 40 "2.50".toList "187.00".toList
    (by decide) (by decide) (by decide) (by decide) (by decide)).1

/-- C10 (as stated, refuted): on a host that answers the probe and whose inspection
command fails, `GetLoad` returns an error and no sample. -/
theorem GetLoad_fails_outright :
    (failingRemote.CheckReachable "host1" ()).1 = true ∧
    (GetLoad failingRemote "host1" ()).1 =
      Except.error (Error.getLoadFailed "exit status 255") :=
  ⟨rfl, rfl⟩

/-- C10 (amended): `GetLoad` returns a sample and no error in two cases: the probe
fails (the sample has `Reachable = false`), or the probe and the inspection call
succeed and the output has five fields (the sample has `Reachable = true`).  When
the probe succeeds and the inspection call fails, or its output does not have five
fields, `GetLoad` returns an error and no sample; it is `FindBest` that treats this
error like an unreachable sample. -/
theorem GetLoad_outcomes {σ : Type} (R : Remote σ) (host : String) (w : σ) :
    ((R.CheckReachable host w).1 = false →
      (GetLoad R host w).1 =
        Except.ok ⟨host, Float64.zero, 0, 0, 0, Float64.zero, false⟩) ∧
    ((R.CheckReachable host w).1 = true →
      (∀ err, (R.Output host (R.CheckReachable host w).2).1 = Except.error err →
        (GetLoad R host w).1 = Except.error (Error.getLoadFailed err)) ∧
      (∀ output, (R.Output host (R.CheckReachable host w).2).1 = Except.ok output →
        ((Split '|' (TrimSpace output)).length ≠ 5 →
          (GetLoad R host w).1 = Except.error Error.unexpectedFormat) ∧
        ((Split '|' (TrimSpace output)).length = 5 →
          ∃ s, (GetLoad R host w).1 = Except.ok s ∧ s.Reachable = true ∧ s.Host = host))) ∧
    ∀ hosts, FindBest (degrade (GetLoad R)) hosts w = FindBest (GetLoad R) hosts w := by
  refine ⟨fun h => ?_, fun h => ⟨fun err ho => GetLoad_call_failed R host w err h ho,
    fun output ho => ⟨fun hl => ?_, fun hl => ?_⟩⟩, fun hosts => ?_⟩
  · rw [GetLoad_unreachable R host w h]
  · rw [GetLoad_call_ok R host w output h ho]
    simp [GetLoad.parse, hl]
  · rw [GetLoad_call_ok R host w output h ho]
    simp [GetLoad.parse, hl]
  · unfold FindBest
    rw [FindBest.scan_degrade]

/-- C11: when the reachability probe fails, `GetLoad` returns, without error, the
sample that carries the host name, `Reachable = false` and zero in every numeric
field.  The inspection command is not run: the world is the one the probe left, and
the result is the same whatever the inspection command and `ParseFloat` would do. -/
theorem GetLoad_probe_failed {σ : Type} (R : Remote σ) (host : String) (w : σ)
    (h : (R.CheckReachable host w).1 = false) :
    GetLoad R host w =
      (Except.ok ⟨host, Float64.zero, 0, 0, 0, Float64.zero, false⟩,
        (R.CheckReachable host w).2) ∧
    ∀ (Output2 : String → σ → Except String (List Char) × σ)
      (ParseFloat2 : List Char → Float64 × Option NumError),
      GetLoad ⟨R.CheckReachable, Output2, ParseFloat2⟩ host w = GetLoad R host w := by
  refine ⟨GetLoad_unreachable R host w h, fun Output2 ParseFloat2 => ?_⟩
  rw [GetLoad_unreachable R host w h, GetLoad_unreachable ⟨_, Output2, ParseFloat2⟩ host w h]

/-- Witness for C11: on a host that does not answer the probe the counter of the
calls of the inspection command stays at 0. -/
theorem GetLoad_probe_failed_witness :
    GetLoad silentRemote "host1" 0 =
      (Except.ok ⟨"host1", Float64.zero, 0, 0, 0, Float64.zero, false⟩, 0) :=
  (GetLoad_probe_failed silentRemote "host1" 0 rfl).1

/-! ## Theorems: OnAll -/

theorem OnAll.join_spec (hosts : List String) :
    ∀ (errors : List (Option RunError)) (lastErr : Option RunError),
      errors.length = hosts.length →
      ∃ r, OnAll.join hosts errors lastErr = some r ∧
        ((∀ e ∈ errors, e = none) → r = lastErr) ∧
        (∀ pre e post, errors = pre ++ some e :: post → (∀ x ∈ post, x = none) →
          r = some e) ∧
        ((∃ e, some e ∈ errors) → ∃ e, r = some e ∧ some e ∈ errors) := by
  induction hosts with
  | nil =>
    intro errors lastErr hlen
    have he : errors = [] := List.length_eq_zero.1 hlen
    subst he
    refine ⟨lastErr, rfl, fun _ => rfl, ?_, ?_⟩
    · intro pre e post hdec
      simp at hdec
    · rintro ⟨e, he⟩
      simp at he
  | cons host rest ih =>
    intro errors lastErr hlen
    cases errors with
    | nil => simp at hlen
    | cons err es =>
      have hlen2 : es.length = rest.length := by simpa using hlen
      cases err with
      | none =>
        obtain ⟨r, hr, ha, hb, hc⟩ := ih es lastErr hlen2
        refine ⟨r, by simpa [OnAll.join] using hr, ?_, ?_, ?_⟩
        · intro hall
          exact ha (fun e he => hall e (List.mem_cons_of_mem _ he))
        · intro pre e post hdec hpost
          cases pre with
          | nil => simp at hdec
          | cons x pre2 =>
            simp only [List.cons_append, List.cons.injEq] at hdec
            exact hb pre2 e post hdec.2 hpost
        · rintro ⟨e, he⟩
          simp only [List.mem_cons] at he
          rcases he with he | he
          · cases he
          · obtain ⟨e2, h1, h2⟩ := hc ⟨e, he⟩
            exact ⟨e2, h1, List.mem_cons_of_mem _ h2⟩
      | some e0 =>
        obtain ⟨r, hr, ha, hb, hc⟩ := ih es (some e0) hlen2
        have hsome : ∃ e, r = some e ∧ some e ∈ some e0 :: es := by
          by_cases hex : ∃ e, some e ∈ es
          · obtain ⟨e2, h1, h2⟩ := hc hex
            exact ⟨e2, h1, List.mem_cons_of_mem _ h2⟩
          · refine ⟨e0, ha ?_, List.mem_cons_self _ _⟩
            intro x hx
            cases x with
            | none => rfl
            | some y => exact absurd ⟨y, hx⟩ hex
        refine ⟨r, by simpa [OnAll.join] using hr, ?_, ?_, fun _ => hsome⟩
        · intro hall
          have := hall (some e0) (List.mem_cons_self _ _)
          cases this
        · intro pre e post hdec hpost
          cases pre with
          | nil =>
            simp only [List.nil_append, List.cons.injEq, Option.some.injEq] at hdec
            obtain ⟨rfl, rfl⟩ := hdec
            exact ha hpost
          | cons x pre2 =>
            simp only [List.cons_append, List.cons.injEq] at hdec
            exact hb pre2 e post hdec.2 hpost

/-- C12: for every completion-ordered sequence of per-host outcomes (one per host),
`OnAll` returns, and its result is the last failure of the sequence, earlier failures
being superseded; it is `nil` exactly when no host failed.  So `OnAll` reports a
failure if and only if at least one command failed. -/
theorem OnAll_last_failure (hosts : List String) (errors : List (Option RunError))
    (h : errors.length = hosts.length) :
    ∃ r, OnAll hosts errors = some r ∧
      (r = none ↔ ∀ e ∈ errors, e = none) ∧
      (∀ pre e post, errors = pre ++ some e :: post → (∀ x ∈ post, x = none) →
        r = some e) := by
  obtain ⟨r, hr, ha, hb, hc⟩ := OnAll.join_spec hosts errors none h
  refine ⟨r, hr, ⟨?_, ha⟩, hb⟩
  intro hnone e he
  cases e with
  | none => rfl
  | some x =>
    obtain ⟨e2, h1, -⟩ := hc ⟨x, he⟩
    rw [hnone] at h1
    cases h1

/-- Witness for C12: three hosts, the first to complete fails, the second succeeds,
the third fails: the failure of the third is returned. -/
theorem OnAll_last_failure_witness :
    OnAll ["host1", "host2", "host3"] [some "exit status 1", none, some "exit status 2"] =
      some (some "exit status 2") ∧
    ∃ r, OnAll ["host1", "host2", "host3"]
        [some "exit status 1", none, some "exit status 2"] = some r ∧
      (r = none ↔ ∀ e ∈ [some "exit status 1", none, some "exit status 2"], e = none) ∧
      (∀ pre e post, [some "exit status 1", none, some "exit status 2"] =
          pre ++ some e :: post → (∀ x ∈ post, x = none) → r = some e) :=
  ⟨rfl, OnAll_last_failure _ _ rfl⟩

/-! ## Theorems: getTargetHosts, GetHost, Push -/

/-- C14: whenever `getTargetHosts` succeeds its result is not empty.  A non-empty host
flag yields exactly `[hostFlag]`, the configuration not being loaded; otherwise a
group missing from the configuration yields the error `group not found` and a group
with no hosts the error `no hosts in group`. -/
theorem getTargetHosts_nonempty {σ : Type} (hostFlag groupFlag : String)
    (Load : σ → Except String Config × σ) (w : σ) :
    (∀ hosts, (getTargetHosts hostFlag groupFlag Load w).1 = Except.ok hosts →
      hosts ≠ []) ∧
    (hostFlag ≠ "" →
      getTargetHosts hostFlag groupFlag Load w = (Except.ok [hostFlag], w)) ∧
    (hostFlag = "" → ∀ cfg, (Load w).1 = Except.ok cfg →
      (cfg.Groups.lookup groupFlag = none →
        (getTargetHosts hostFlag groupFlag Load w).1 =
          Except.error (TargetError.groupNotFound groupFlag)) ∧
      (cfg.Groups.lookup groupFlag = some [] →
        (getTargetHosts hostFlag groupFlag Load w).1 =
          Except.error (TargetError.noHostsInGroup groupFlag))) := by
  refine ⟨?_, ?_, ?_⟩
  · intro hosts hres
    unfold getTargetHosts at hres
    by_cases hf : hostFlag ≠ ""
    · rw [if_pos hf] at hres
      simp only [Except.ok.injEq] at hres
      rw [← hres]
      simp
    · rw [if_neg hf] at hres
      rcases hl : Load w with ⟨r, w1⟩
      rw [hl] at hres
      cases r with
      | error err => simp at hres
      | ok cfg =>
        simp only [Config.GetGroup] at hres
        cases hg : cfg.Groups.lookup groupFlag with
        | none => rw [hg] at hres; simp at hres
        | some hs =>
          rw [hg] at hres
          simp only at hres
          by_cases h0 : hs.length = 0
          · rw [if_pos h0] at hres; simp at hres
          · rw [if_neg h0] at hres
            simp only [Except.ok.injEq] at hres
            subst hres
            intro hnil
            rw [hnil] at h0
            exact h0 rfl
  · intro hf
    unfold getTargetHosts
    rw [if_pos hf]
  · intro hf cfg hcfg
    unfold getTargetHosts
    rw [if_neg (by simpa using hf)]
    rcases hl : Load w with ⟨r, w1⟩
    rw [hl] at hcfg
    simp only at hcfg
    subst hcfg
    refine ⟨fun hg => ?_, fun hg => ?_⟩
    · simp [Config.GetGroup, hg]
    · simp [Config.GetGroup, hg]

/-- C16: `GetHost` returns `nil` if and only if no host of the list has the alias, and
otherwise returns the first host of the list that has it. -/
theorem GetHost_first_match (hosts : List SSHHost) (name : List Char) :
    (GetHost hosts name = none ↔ ∀ h ∈ hosts, h.Alias ≠ name) ∧
    ∀ h, GetHost hosts name = some h ↔
      ∃ pre post, hosts = pre ++ h :: post ∧ h.Alias = name ∧
        ∀ x ∈ pre, x.Alias ≠ name := by
  induction hosts with
  | nil =>
    refine ⟨by simp [GetHost], fun h => ?_⟩
    simp [GetHost]
  | cons a rest ih =>
    obtain ⟨ih1, ih2⟩ := ih
    by_cases ha : a.Alias = name
    · refine ⟨?_, fun h => ?_⟩
      · simp [GetHost, ha]
      · simp only [GetHost, ha, if_true, Option.some.injEq]
        constructor
        · rintro rfl
          exact ⟨[], rest, rfl, ha, by simp⟩
        · rintro ⟨pre, post, hdec, -, hpre⟩
          cases pre with
          | nil =>
            simp only [List.nil_append, List.cons.injEq] at hdec
            exact hdec.1
          | cons x pre2 =>
            simp only [List.cons_append, List.cons.injEq] at hdec
            exact absurd (hdec.1 ▸ ha) (hpre x (List.mem_cons_self _ _))
    · refine ⟨?_, fun h => ?_⟩
      · simp only [GetHost, ha, if_false, ih1, List.mem_cons, forall_eq_or_imp, ne_eq,
          not_false_eq_true, true_and]
      · simp only [GetHost, ha, if_false, ih2 h]
        constructor
        · rintro ⟨pre, post, hdec, hal, hpre⟩
          refine ⟨a :: pre, post, by rw [hdec]; rfl, hal, ?_⟩
          intro x hx
          rcases List.mem_cons.1 hx with rfl | hx
          · exact ha
          · exact hpre x hx
        · rintro ⟨pre, post, hdec, hal, hpre⟩
          cases pre with
          | nil =>
            simp only [List.nil_append, List.cons.injEq] at hdec
            exact absurd (hdec.1 ▸ hal) ha
          | cons x pre2 =>
            simp only [List.cons_append, List.cons.injEq] at hdec
            exact ⟨pre2, post, hdec.2, hal, fun y hy => hpre y (List.mem_cons_of_mem _ hy)⟩

theorem HasPrefix_append (p s : List Char) : HasPrefix (p ++ s) p = true := by
  induction p with
  | nil => cases s <;> rfl
  | cons c p ih => simp [HasPrefix, ih]

/-- C17: for every non-empty home directory and every path made of the home directory
followed by a suffix (the home directory itself when the suffix is empty), the remote
path of `Push` is `~` followed by that suffix. -/
theorem Push_remotePath_under_home (home suffix : List Char) (h : home ≠ []) :
    Push.remotePath (home ++ suffix) home = '~' :: suffix := by
  unfold Push.remotePath
  cases home with
  | nil => exact absurd rfl h
  | cons c p =>
    have hp := HasPrefix_append (c :: p) suffix
    rw [List.cons_append] at hp ⊢
    simp only [Replace, hp, if_true]
    rw [← List.cons_append, List.drop_left]
    rfl

/-- Witness for C17: `/home/user/projects/myapp` becomes `~/projects/myapp`. -/
theorem Push_remotePath_under_home_witness :
    Push.remotePath "/home/user/projects/myapp".toList "/home/user".toList =
      "~/projects/myapp".toList :=
  Push_remotePath_under_home "/home/user".toList "/projects/myapp".toList (by decide)

/-! ## Theorems: ParseSSHConfig -/

theorem ParseSSHConfig.setLast_snoc (f : SSHHost → SSHHost) (H : List SSHHost) (h : SSHHost) :
    ParseSSHConfig.setLast f (H ++ [h]) = H ++ [f h] := by
  induction H with
  | nil => rfl
  | cons a H ih =>
    cases H with
    | nil => rfl
    | cons b H2 =>
      simp only [List.cons_append] at ih ⊢
      simp only [ParseSSHConfig.setLast, ih]

theorem ParseSSHConfig.scan_append (ToLower : List Char → List Char)
    (l1 l2 : List (List Char)) (st : ParseSSHConfig.State) :
    ParseSSHConfig.scan ToLower (l1 ++ l2) st =
      ParseSSHConfig.scan ToLower l2 (ParseSSHConfig.scan ToLower l1 st) := by
  induction l1 generalizing st with
  | nil => rfl
  | cons text rest ih =>
    rw [List.cons_append]
    simp only [ParseSSHConfig.scan]
    cases ParseSSHConfig.directive ToLower text with
    | none => exact ih st
    | some kv => exact ih _

/-- Outside a block (`currentHost == nil`) the lines that are not `Host` lines change
nothing. -/
theorem ParseSSHConfig.scan_idle (ToLower : List Char → List Char)
    (body : List (List Char)) (H : List SSHHost)
    (hbody : ∀ l ∈ body, ParseSSHConfig.valueOf ToLower "host".toList l = none) :
    ParseSSHConfig.scan ToLower body ⟨H, none⟩ = ⟨H, none⟩ := by
  induction body with
  | nil => rfl
  | cons text rest ih =>
    have hrest := ih (fun l hl => hbody l (List.mem_cons_of_mem _ hl))
    have htext := hbody text (List.mem_cons_self _ _)
    simp only [ParseSSHConfig.scan]
    unfold ParseSSHConfig.valueOf at htext
    cases hd : ParseSSHConfig.directive ToLower text with
    | none => exact hrest
    | some kv =>
      obtain ⟨k, v⟩ := kv
      rw [hd] at htext
      have hk : k ≠ "host".toList := by
        intro hk
        simp [hk] at htext
      have : ParseSSHConfig.switch ⟨H, none⟩ k v = ⟨H, none⟩ := by
        unfold ParseSSHConfig.switch
        rw [if_neg hk]
        split_ifs <;> first | rfl | simp_all
      simp only [this]
      exact hrest


theorem ParseSSHConfig.valueOf_eq (ToLower : List Char → List Char) (key text k v : List Char)
    (hd : ParseSSHConfig.directive ToLower text = some (k, v)) :
    ParseSSHConfig.valueOf ToLower key text = if k = key then some v else none := by
  unfold ParseSSHConfig.valueOf
  rw [hd]

theorem ParseSSHConfig.valueOf_none (ToLower : List Char → List Char) (key text : List Char)
    (hd : ParseSSHConfig.directive ToLower text = none) :
    ParseSSHConfig.valueOf ToLower key text = none := by
  unfold ParseSSHConfig.valueOf
  rw [hd]

theorem getLast?_cons_getD {α : Type} (v d : α) (xs : List α) :
    ((v :: xs).getLast?).getD d = (xs.getLast?).getD v := by
  induction xs generalizing v d with
  | nil => rfl
  | cons x xs ih =>
    rw [List.getLast?_cons_cons, ih x d, ih x v]

/-- Inside a block the lines that are not `Host` lines act on the last entry only:
each field ends with the value of the last line that sets it. -/
theorem ParseSSHConfig.scan_body (ToLower : List Char → List Char)
    (body : List (List Char))
    (hbody : ∀ l ∈ body, ParseSSHConfig.valueOf ToLower "host".toList l = none)
    (H : List SSHHost) (h c : SSHHost) :
    ParseSSHConfig.scan ToLower body ⟨H ++ [h], some c⟩ =
      ⟨H ++ [⟨h.Alias,
          ((body.filterMap (ParseSSHConfig.valueOf ToLower "hostname".toList)).getLast?).getD
            h.Hostname,
          ((body.filterMap (ParseSSHConfig.valueOf ToLower "user".toList)).getLast?).getD
            h.User,
          ((body.filterMap (ParseSSHConfig.valueOf ToLower "port".toList)).getLast?).getD
            h.Port⟩], some c⟩ := by
  induction body generalizing h with
  | nil => rfl
  | cons text rest ih =>
    have hrest := ih (fun l hl => hbody l (List.mem_cons_of_mem _ hl))
    have htext := hbody text (List.mem_cons_self _ _)
    simp only [ParseSSHConfig.scan]
    cases hd : ParseSSHConfig.directive ToLower text with
    | none =>
      simp only [List.filterMap_cons, ParseSSHConfig.valueOf_none ToLower _ text hd]
      exact hrest h
    | some kv =>
      obtain ⟨k, v⟩ := kv
      rw [ParseSSHConfig.valueOf_eq ToLower _ text k v hd] at htext
      have hk : k ≠ "host".toList := by
        intro hk
        rw [if_pos hk] at htext
        cases htext
      simp only [List.filterMap_cons, ParseSSHConfig.valueOf_eq ToLower _ text k v hd]
      unfold ParseSSHConfig.switch
      rw [if_neg hk]
      by_cases h1 : k = "hostname".toList
      · have h2 : ¬ k = "user".toList := by rw [h1]; decide
        have h3 : ¬ k = "port".toList := by rw [h1]; decide
        simp only [if_pos h1, if_neg h2, if_neg h3, Option.isSome_some, if_true,
          ParseSSHConfig.setLast_snoc, getLast?_cons_getD]
        exact hrest _
      · by_cases h2 : k = "user".toList
        · have h3 : ¬ k = "port".toList := by rw [h2]; decide
          simp only [if_neg h1, if_pos h2, if_neg h3, Option.isSome_some, if_true,
            ParseSSHConfig.setLast_snoc, getLast?_cons_getD]
          exact hrest _
        · by_cases h3 : k = "port".toList
          · simp only [if_neg h1, if_neg h2, if_pos h3, Option.isSome_some, if_true,
              ParseSSHConfig.setLast_snoc, getLast?_cons_getD]
            exact hrest _
          · simp only [if_neg h1, if_neg h2, if_neg h3]
            exact hrest h

theorem getLast?_eq_head?_of_length_le_one {α : Type} (xs : List α) (h : xs.length ≤ 1) :
    xs.getLast? = xs.head? := by
  cases xs with
  | nil => rfl
  | cons x xs =>
    cases xs with
    | nil => rfl
    | cons y ys => simp at h

theorem ParseSSHConfig.scan_blocks (ToLower : List Char → List Char)
    (blocks : List HostBlock)
    (hblocks : ∀ b ∈ blocks,
      (ParseSSHConfig.valueOf ToLower "host".toList b.head).isSome = true ∧
      (∀ l ∈ b.body, ParseSSHConfig.valueOf ToLower "host".toList l = none) ∧
      (b.body.filterMap (ParseSSHConfig.valueOf ToLower "hostname".toList)).length ≤ 1 ∧
      (b.body.filterMap (ParseSSHConfig.valueOf ToLower "user".toList)).length ≤ 1 ∧
      (b.body.filterMap (ParseSSHConfig.valueOf ToLower "port".toList)).length ≤ 1)
    (st : ParseSSHConfig.State) :
    (ParseSSHConfig.scan ToLower (blocks.flatMap HostBlock.lines) st).hosts =
      st.hosts ++ blocks.filterMap (HostBlock.entry ToLower) := by
  induction blocks generalizing st with
  | nil => simp [ParseSSHConfig.scan]
  | cons b bs ih =>
    have hbs := ih (fun b hb => hblocks b (List.mem_cons_of_mem _ hb))
    obtain ⟨hhead, hbody, h1, h2, h3⟩ := hblocks b (List.mem_cons_self _ _)
    rw [List.flatMap_cons, ParseSSHConfig.scan_append]
    -- the `Host` line
    have hv : ∃ v, ParseSSHConfig.directive ToLower b.head = some ("host".toList, v) := by
      unfold ParseSSHConfig.valueOf at hhead
      cases hd : ParseSSHConfig.directive ToLower b.head with
      | none => rw [hd] at hhead; cases hhead
      | some kv =>
        obtain ⟨k, v⟩ := kv
        rw [hd] at hhead
        by_cases hk : k = "host".toList
        · exact ⟨v, by rw [hk]⟩
        · simp only [if_neg hk] at hhead
          cases hhead
    obtain ⟨v, hd⟩ := hv
    have hval : ParseSSHConfig.valueOf ToLower "host".toList b.head = some v := by
      rw [ParseSSHConfig.valueOf_eq ToLower _ _ _ _ hd, if_pos rfl]
    have hlines : ParseSSHConfig.scan ToLower b.lines st =
        ParseSSHConfig.scan ToLower b.body (ParseSSHConfig.switch st "host".toList v) := by
      unfold HostBlock.lines
      simp only [ParseSSHConfig.scan, hd]
    rw [hlines]
    by_cases hw : '*' ∈ v
    · have hsw : ParseSSHConfig.switch st "host".toList v = ⟨st.hosts, none⟩ := by
        unfold ParseSSHConfig.switch
        rw [if_pos rfl, if_pos hw]
      have hentry : HostBlock.entry ToLower b = none := by
        unfold HostBlock.entry
        rw [hval]
        simp only [if_pos hw]
      rw [hsw, ParseSSHConfig.scan_idle ToLower b.body st.hosts hbody, hbs,
        List.filterMap_cons_none hentry]
    · have hsw : ParseSSHConfig.switch st "host".toList v =
          ⟨st.hosts ++ [⟨v, [], [], "22".toList⟩], some ⟨v, [], [], "22".toList⟩⟩ := by
        unfold ParseSSHConfig.switch
        rw [if_pos rfl, if_neg hw]
      have hentry : HostBlock.entry ToLower b = some ⟨v,
          ((b.body.filterMap (ParseSSHConfig.valueOf ToLower "hostname".toList)).getLast?).getD [],
          ((b.body.filterMap (ParseSSHConfig.valueOf ToLower "user".toList)).getLast?).getD [],
          ((b.body.filterMap (ParseSSHConfig.valueOf ToLower "port".toList)).getLast?).getD
            "22".toList⟩ := by
        unfold HostBlock.entry
        rw [hval]
        simp only [if_neg hw, getLast?_eq_head?_of_length_le_one _ h1,
          getLast?_eq_head?_of_length_le_one _ h2, getLast?_eq_head?_of_length_le_one _ h3]
      rw [hsw, ParseSSHConfig.scan_body ToLower b.body hbody, hbs,
        List.filterMap_cons_some hentry, List.append_assoc]
      rfl

theorem ScanLines.loop_line (l rest cur : List Char) (h : '\n' ∉ l) :
    ScanLines.loop (l ++ '\n' :: rest) cur = (cur.reverse ++ l) :: ScanLines.loop rest [] := by
  induction l generalizing cur with
  | nil => simp [ScanLines.loop]
  | cons c l ih =>
    have hc : c ≠ '\n' := fun hc => h (hc ▸ List.mem_cons_self _ _)
    have hl : '\n' ∉ l := fun hl => h (List.mem_cons_of_mem _ hl)
    rw [List.cons_append]
    simp only [ScanLines.loop, hc, if_false]
    rw [ih (c :: cur) hl]
    simp

theorem ScanLines.loop_last (l cur : List Char) (h : '\n' ∉ l) :
    ScanLines.loop l cur = if cur.reverse ++ l = [] then [] else [cur.reverse ++ l] := by
  induction l generalizing cur with
  | nil => simp [ScanLines.loop]
  | cons c l ih =>
    have hc : c ≠ '\n' := fun hc => h (hc ▸ List.mem_cons_self _ _)
    have hl : '\n' ∉ l := fun hl => h (List.mem_cons_of_mem _ hl)
    simp only [ScanLines.loop, hc, if_false]
    rw [ih (c :: cur) hl]
    simp

/-- The scanner cuts the text of a file back into its lines. -/
theorem ScanLines.loop_fileText (lines : List (List Char)) (last : List Char)
    (hlines : ∀ l ∈ lines, '\n' ∉ l) (hlast : '\n' ∉ last) :
    ScanLines.loop (fileText lines last) [] =
      lines ++ (if last = [] then [] else [last]) := by
  induction lines with
  | nil =>
    simp only [fileText, List.flatMap_nil, List.nil_append]
    rw [ScanLines.loop_last last [] hlast]
    simp
  | cons l rest ih =>
    have h1 := hlines l (List.mem_cons_self _ _)
    have h2 := ih (fun x hx => hlines x (List.mem_cons_of_mem _ hx))
    unfold fileText at h2 ⊢
    rw [List.flatMap_cons, List.append_assoc, List.append_assoc, List.singleton_append,
      ScanLines.loop_line l _ [] h1, h2]
    simp

theorem Scan_short (lines : List (List Char))
    (h : ∀ l ∈ lines, byteLen l < maxScanTokenSize) :
    Scan lines = (lines.map dropCR, none) := by
  induction lines with
  | nil => rfl
  | cons l rest ih =>
    have h1 := h l (List.mem_cons_self _ _)
    have h2 := ih (fun x hx => h x (List.mem_cons_of_mem _ hx))
    simp only [Scan, List.map_cons]
    rw [if_neg (by omega), h2]

theorem dropWhile_snoc (p : Char → Bool) (s : List Char) (c : Char) (hc : p c = true) :
    (s ++ [c]).dropWhile p = if s.dropWhile p = [] then [] else s.dropWhile p ++ [c] := by
  induction s with
  | nil => simp [List.dropWhile, hc]
  | cons a s ih =>
    cases ha : p a with
    | true => simpa [List.dropWhile, ha] using ih
    | false => simp [List.dropWhile, ha]

theorem TrimSpace_snoc_space (s : List Char) (c : Char) (hc : isSpace c = true) :
    TrimSpace (s ++ [c]) = TrimSpace s := by
  unfold TrimSpace
  rw [dropWhile_snoc isSpace s c hc]
  by_cases ht : s.dropWhile isSpace = []
  · rw [if_pos ht, ht]
  · rw [if_neg ht, List.reverse_append, List.reverse_singleton, List.singleton_append,
      List.dropWhile_cons_of_pos hc]

theorem TrimSpace_dropCR (l : List Char) : TrimSpace (dropCR l) = TrimSpace l := by
  unfold dropCR
  by_cases h : l.getLast? = some '\r'
  · rw [if_pos h]
    have hl : l.dropLast ++ ['\r'] = l := List.dropLast_append_getLast? '\r' h
    conv_rhs => rw [← hl]
    rw [TrimSpace_snoc_space _ _ (by decide)]
  · rw [if_neg h]

theorem ParseSSHConfig.scan_dropCR (ToLower : List Char → List Char)
    (lines : List (List Char)) (st : ParseSSHConfig.State) :
    ParseSSHConfig.scan ToLower (lines.map dropCR) st =
      ParseSSHConfig.scan ToLower lines st := by
  induction lines generalizing st with
  | nil => rfl
  | cons l rest ih =>
    have hd : ParseSSHConfig.directive ToLower (dropCR l) =
        ParseSSHConfig.directive ToLower l := by
      unfold ParseSSHConfig.directive
      rw [TrimSpace_dropCR]
    simp only [List.map_cons, ParseSSHConfig.scan, hd]
    cases ParseSSHConfig.directive ToLower l with
    | none => exact ih st
    | some kv => exact ih _

theorem byteLen_replicate_hash (n : Nat) : byteLen (List.replicate n '#') = n := by
  induction n with
  | zero => rfl
  | succ n ih =>
    unfold byteLen at ih ⊢
    rw [List.replicate_succ, List.map_cons, List.sum_cons, ih]
    have : utf8Len '#' = 1 := by decide
    omega

theorem directive_hash_line (ToLower : List Char → List Char) (n : Nat) :
    ParseSSHConfig.directive ToLower (List.replicate (n + 1) '#') = none := by
  have htrim : TrimSpace (List.replicate (n + 1) '#') = List.replicate (n + 1) '#' := by
    unfold TrimSpace
    have h1 : ∀ m, (List.replicate (m + 1) '#').dropWhile isSpace =
        List.replicate (m + 1) '#' := by
      intro m
      rw [List.replicate_succ, List.dropWhile_cons_of_neg (by decide)]
    rw [h1, List.reverse_replicate, h1, List.reverse_replicate]
  unfold ParseSSHConfig.directive
  simp only [htrim]
  have hp : HasPrefix (List.replicate (n + 1) '#') ['#'] = true := by
    rw [List.replicate_succ]
    cases List.replicate n '#' <;> rfl
  rw [if_pos (Or.inr hp)]

theorem HostBlock.lines_two (c : List Char) :
    ["Host a".toList, c, "Host b".toList] =
      List.flatMap ([⟨"Host a".toList, [c]⟩, ⟨"Host b".toList, []⟩] : List HostBlock)
        HostBlock.lines := rfl

theorem HostBlock.entry_two (c : List Char)
    (hval : ∀ key, ParseSSHConfig.valueOf asciiToLower key c = none) :
    List.filterMap (HostBlock.entry asciiToLower)
        ([⟨"Host a".toList, [c]⟩, ⟨"Host b".toList, []⟩] : List HostBlock) =
      [⟨"a".toList, [], [], "22".toList⟩, ⟨"b".toList, [], [], "22".toList⟩] := by
  have ha : ParseSSHConfig.valueOf asciiToLower "host".toList "Host a".toList =
      some "a".toList := by decide
  have hb : ParseSSHConfig.valueOf asciiToLower "host".toList "Host b".toList =
      some "b".toList := by decide
  have hna : ¬ '*' ∈ "a".toList := by decide
  have hnb : ¬ '*' ∈ "b".toList := by decide
  simp only [List.filterMap_cons, List.filterMap_nil, HostBlock.entry,
    ha, hb, hval, if_neg hna, if_neg hnb, List.head?_nil, Option.getD_none]

theorem Scan_two (c : List Char) (h : byteLen c ≥ maxScanTokenSize) :
    Scan ["Host a".toList, c, "Host b".toList] =
      (["Host a".toList], some ConfigError.ErrTooLong) := by
  have h1 : ¬ byteLen "Host a".toList ≥ maxScanTokenSize := by decide
  have h3 : dropCR "Host a".toList = "Host a".toList := by decide
  simp only [Scan, if_neg h1, if_pos h, h3]

theorem Fields.loop_space (c : Char) (s cur : List Char) (hc : isSpace c = true) :
    Fields.loop (c :: s) cur =
      if cur = [] then Fields.loop s [] else cur.reverse :: Fields.loop s [] := by
  simp only [Fields.loop, hc, if_true]

theorem Fields.loop_spaces (sp s : List Char) (h : ∀ c ∈ sp, isSpace c = true) :
    Fields.loop (sp ++ s) [] = Fields.loop s [] := by
  induction sp with
  | nil => rfl
  | cons c sp ih =>
    rw [List.cons_append, Fields.loop_space c _ [] (h c (List.mem_cons_self _ _)), if_pos rfl]
    exact ih (fun x hx => h x (List.mem_cons_of_mem _ hx))

theorem Fields.loop_word (w s cur : List Char) (h : ∀ c ∈ w, isSpace c = false) :
    Fields.loop (w ++ s) cur = Fields.loop s (w.reverse ++ cur) := by
  induction w generalizing cur with
  | nil => rfl
  | cons c w ih =>
    have hc : isSpace c = false := h c (List.mem_cons_self _ _)
    rw [List.cons_append]
    simp only [Fields.loop, hc, Bool.false_eq_true, if_false]
    rw [ih (c :: cur) (fun x hx => h x (List.mem_cons_of_mem _ hx))]
    simp

theorem Fields.loop_snoc_space (s cur : List Char) (c : Char) (hc : isSpace c = true) :
    Fields.loop (s ++ [c]) cur = Fields.loop s cur := by
  induction s generalizing cur with
  | nil =>
    rw [List.nil_append, Fields.loop_space c [] cur hc]
    simp only [Fields.loop]
    by_cases h : cur = []
    · simp [h]
    · simp [h]
  | cons a s ih =>
    rw [List.cons_append]
    simp only [Fields.loop, ih]

theorem Fields.loop_trailing (s sp cur : List Char) (h : ∀ c ∈ sp, isSpace c = true) :
    Fields.loop (s ++ sp) cur = Fields.loop s cur := by
  induction sp using List.reverseRecOn with
  | nil => rw [List.append_nil]
  | append_singleton sp c ih =>
    rw [← List.append_assoc, Fields.loop_snoc_space _ _ c (h c (by simp))]
    exact ih (fun x hx => h x (by simp [hx]))

theorem Fields_TrimSpace (s : List Char) : Fields (TrimSpace s) = Fields s := by
  have h1 : s = s.takeWhile isSpace ++ s.dropWhile isSpace :=
    (List.takeWhile_append_dropWhile isSpace s).symm
  have h2 : s.dropWhile isSpace =
      TrimSpace s ++ ((s.dropWhile isSpace).reverse.takeWhile isSpace).reverse := by
    unfold TrimSpace
    rw [← List.reverse_append, List.takeWhile_append_dropWhile, List.reverse_reverse]
  unfold Fields
  conv_rhs => rw [h1, h2]
  rw [Fields.loop_spaces _ _ (fun c hc => List.mem_takeWhile_imp hc),
    Fields.loop_trailing _ _ _
      (fun c hc => List.mem_takeWhile_imp (List.mem_reverse.1 hc))]

theorem dropWhile_snoc_neg (p : Char → Bool) (s : List Char) (c : Char) (hc : p c = false) :
    (s ++ [c]).dropWhile p = s.dropWhile p ++ [c] := by
  induction s with
  | nil => simp [List.dropWhile, hc]
  | cons a s ih =>
    cases ha : p a with
    | true => simpa [List.dropWhile, ha] using ih
    | false => simp [List.dropWhile, ha]

theorem TrimSpace_head (indent : List Char) (k : Char) (rest : List Char)
    (hi : ∀ c ∈ indent, isSpace c = true) (hk : isSpace k = false) :
    ∃ tail, TrimSpace (indent ++ k :: rest) = k :: tail := by
  have hd : (indent ++ k :: rest).dropWhile isSpace = k :: rest := by
    induction indent with
    | nil => simp [List.dropWhile, hk]
    | cons c indent ih =>
      rw [List.cons_append, List.dropWhile_cons_of_pos (hi c (List.mem_cons_self _ _))]
      exact ih (fun x hx => hi x (List.mem_cons_of_mem _ hx))
  refine ⟨(rest.reverse.dropWhile isSpace).reverse, ?_⟩
  unfold TrimSpace
  rw [hd, List.reverse_cons, dropWhile_snoc_neg isSpace _ k hk, List.reverse_append,
    List.reverse_singleton, List.singleton_append]

theorem Fields_directiveLine (d : DirectiveLine) (h : d.wellFormed = true) :
    ∃ tail, Fields d.text = d.key :: d.value :: tail := by
  simp only [DirectiveLine.wellFormed, Bool.and_eq_true, List.all_eq_true,
    Bool.not_eq_true', bne_iff_ne, ne_eq] at h
  obtain ⟨⟨⟨⟨⟨⟨⟨⟨hi, hk0⟩, hk⟩, hk1⟩, hg0⟩, hg⟩, hv0⟩, hv⟩, hr⟩ := h
  unfold Fields DirectiveLine.text
  rw [Fields.loop_spaces _ _ hi, Fields.loop_word _ _ _ hk, List.append_nil]
  rcases hgap : d.gap with _ | ⟨g, gs⟩
  · rw [hgap] at hg0
    cases hg0
  · rw [hgap] at hg
    have hkne : d.key.reverse ≠ [] := by
      intro hh
      rw [List.reverse_eq_nil_iff] at hh
      rw [hh] at hk0
      cases hk0
    rw [List.cons_append, Fields.loop_space g _ _ (hg g (List.mem_cons_self _ _)),
      if_neg hkne, List.reverse_reverse,
      Fields.loop_spaces _ _ (fun c hc => hg c (List.mem_cons_of_mem _ hc)),
      Fields.loop_word _ _ _ hv, List.append_nil]
    have hvne : d.value.reverse ≠ [] := by
      intro hh
      rw [List.reverse_eq_nil_iff] at hh
      rw [hh] at hv0
      cases hv0
    rcases hrest : d.rest with _ | ⟨c, r⟩
    · refine ⟨[], ?_⟩
      simp only [Fields.loop, if_neg hvne, List.reverse_reverse]
    · rw [hrest] at hr
      have hc : isSpace c = true := by simpa using hr
      refine ⟨Fields.loop r [], ?_⟩
      rw [Fields.loop_space c _ _ hc, if_neg hvne, List.reverse_reverse]

theorem ParseSSHConfig.directive_text (ToLower : List Char → List Char) (d : DirectiveLine)
    (h : d.wellFormed = true) :
    ParseSSHConfig.directive ToLower d.text = some (ToLower d.key, d.value) := by
  obtain ⟨tail, hf⟩ := Fields_directiveLine d h
  simp only [DirectiveLine.wellFormed, Bool.and_eq_true, List.all_eq_true,
    Bool.not_eq_true', bne_iff_ne, ne_eq] at h
  obtain ⟨⟨⟨⟨⟨⟨⟨⟨hi, hk0⟩, hk⟩, hk1⟩, -⟩, -⟩, -⟩, -⟩, -⟩ := h
  rcases hkey : d.key with _ | ⟨k, ks⟩
  · rw [hkey] at hk0
    cases hk0
  · rw [hkey] at hk hk1
    have hk2 : isSpace k = false := hk k (List.mem_cons_self _ _)
    have hk3 : k ≠ '#' := fun hh => hk1 (by rw [hh]; rfl)
    obtain ⟨t, ht⟩ := TrimSpace_head d.indent k (ks ++ (d.gap ++ (d.value ++ d.rest))) hi hk2
    have htext : d.text = d.indent ++ k :: (ks ++ (d.gap ++ (d.value ++ d.rest))) := by
      unfold DirectiveLine.text
      rw [hkey, List.cons_append]
    have hline : ¬ (TrimSpace d.text = [] ∨ HasPrefix (TrimSpace d.text) ['#'] = true) := by
      rw [htext, ht]
      intro hh
      rcases hh with hh | hh
      · cases hh
      · simp only [HasPrefix, Bool.and_eq_true, beq_iff_eq] at hh
        exact hk3 hh.1
    unfold ParseSSHConfig.directive
    simp only [if_neg hline, Fields_TrimSpace, hf, hkey]
    simp

theorem ParseSSHConfig.directive_word (ToLower : List Char → List Char)
    (indent word trailing : List Char) (hi : ∀ c ∈ indent, isSpace c = true)
    (hw : ∀ c ∈ word, isSpace c = false) (ht : ∀ c ∈ trailing, isSpace c = true) :
    ParseSSHConfig.directive ToLower (indent ++ (word ++ trailing)) = none := by
  have hf : (Fields (indent ++ (word ++ trailing))).length < 2 := by
    unfold Fields
    rw [Fields.loop_spaces _ _ hi, Fields.loop_trailing _ _ _ ht,
      ← List.append_nil word, Fields.loop_word _ _ _ hw]
    simp only [Fields.loop]
    split_ifs <;> simp
  unfold ParseSSHConfig.directive
  simp only [Fields_TrimSpace, if_pos hf]
  split_ifs <;> rfl

theorem ParseSSHConfig.directive_comment (ToLower : List Char → List Char)
    (indent text : List Char) (hi : ∀ c ∈ indent, isSpace c = true) :
    ParseSSHConfig.directive ToLower (indent ++ '#' :: text) = none := by
  obtain ⟨t, ht⟩ := TrimSpace_head indent '#' text hi (by decide)
  unfold ParseSSHConfig.directive
  simp only [ht]
  rw [if_pos (Or.inr (by cases t <;> rfl))]

theorem ScanLines.loop_fileText_append (lines : List (List Char)) (tail : List Char)
    (hlines : ∀ l ∈ lines, '\n' ∉ l) :
    ScanLines.loop (fileText lines tail) [] = lines ++ ScanLines.loop tail [] := by
  induction lines with
  | nil => simp only [fileText, List.flatMap_nil, List.nil_append]
  | cons l rest ih =>
    have h1 := hlines l (List.mem_cons_self _ _)
    have h2 := ih (fun x hx => hlines x (List.mem_cons_of_mem _ hx))
    unfold fileText at h2 ⊢
    rw [List.flatMap_cons, List.append_assoc, List.append_assoc, List.singleton_append,
      ScanLines.loop_line l _ [] h1, h2]
    simp

theorem Scan_long (before : List (List Char)) (long : List Char) (after : List (List Char))
    (h : ∀ l ∈ before, byteLen l < maxScanTokenSize) (hl : maxScanTokenSize ≤ byteLen long) :
    Scan (before ++ long :: after) = (before.map dropCR, some ConfigError.ErrTooLong) := by
  induction before with
  | nil =>
    simp only [List.nil_append, Scan, List.map_nil]
    rw [if_pos hl]
  | cons l rest ih =>
    have h1 := h l (List.mem_cons_self _ _)
    have h2 := ih (fun x hx => h x (List.mem_cons_of_mem _ hx))
    rw [List.cons_append]
    simp only [Scan, List.map_cons]
    rw [if_neg (by omega), h2]

theorem ParseSSHConfig.long_line (ToLower : List Char → List Char)
    (before : List (List Char)) (long after : List Char)
    (hbefore : ∀ l ∈ before, '\n' ∉ l ∧ byteLen l < maxScanTokenSize)
    (hlong : '\n' ∉ long ∧ maxScanTokenSize ≤ byteLen long)
    (hafter : after = [] ∨ ∃ r, after = '\n' :: r) :
    ParseSSHConfig ToLower (Except.ok (fileText before (long ++ after))) =
      ((ParseSSHConfig ToLower (Except.ok (fileText before []))).1,
        some ConfigError.ErrTooLong) := by
  have hne : long ≠ [] := by
    intro hh
    have := hlong.2
    rw [hh] at this
    revert this
    decide
  have hcut : ∃ more, ScanLines.loop (long ++ after) [] = long :: more := by
    rcases hafter with rfl | ⟨r, rfl⟩
    · refine ⟨[], ?_⟩
      rw [List.append_nil, ScanLines.loop_last long [] hlong.1]
      simp [hne]
    · refine ⟨ScanLines.loop r [], ?_⟩
      rw [ScanLines.loop_line long r [] hlong.1]
      simp
  obtain ⟨more, hmore⟩ := hcut
  unfold ParseSSHConfig
  simp only [ScanLines.loop_fileText_append before _ (fun l hl => (hbefore l hl).1), hmore,
    Scan_long before long more (fun l hl => (hbefore l hl).2) hlong.2,
    ScanLines.loop, if_true, List.append_nil,
    Scan_short before (fun l hl => (hbefore l hl).2)]

/-- C15 (as stated, refuted): the file `Host a`, a comment line of 65536 bytes,
`Host b` is made of two blocks whose bodies hold no directive at all, and the entries
of its `Host` lines are those of `a` and `b`; `ParseSSHConfig` returns the entry of
`a` only, with the error `ErrTooLong`: the scanner stops at the long line. -/
theorem ParseSSHConfig_stops_at_long_line :
    longLineConfig = longLineBlocks.flatMap HostBlock.lines ∧
    (∀ b ∈ longLineBlocks, ∀ l ∈ b.body,
      ParseSSHConfig.directive asciiToLower l = none) ∧
    longLineBlocks.filterMap (HostBlock.entry asciiToLower) =
      [⟨"a".toList, [], [], "22".toList⟩, ⟨"b".toList, [], [], "22".toList⟩] ∧
    ParseSSHConfig asciiToLower (Except.ok (fileText longLineConfig [])) =
      ([⟨"a".toList, [], [], "22".toList⟩], some ConfigError.ErrTooLong) := by
  have hdir : ParseSSHConfig.directive asciiToLower (List.replicate 65536 '#') = none :=
    directive_hash_line asciiToLower 65535
  have hval : ∀ key, ParseSSHConfig.valueOf asciiToLower key (List.replicate 65536 '#') =
      none :=
    fun key => ParseSSHConfig.valueOf_none asciiToLower key _ hdir
  refine ⟨HostBlock.lines_two _, ?_, HostBlock.entry_two _ hval, ?_⟩
  · intro b hb l hl
    simp only [longLineBlocks, List.mem_cons, List.mem_nil_iff, or_false] at hb
    rcases hb with rfl | rfl
    · rw [List.mem_singleton.1 hl]
      exact hdir
    · cases hl
  · have hnl : ∀ l ∈ longLineConfig, '\n' ∉ l := by
      intro l hl
      simp only [longLineConfig, List.mem_cons, List.mem_nil_iff, or_false] at hl
      rcases hl with rfl | rfl | rfl
      · decide
      · intro h
        have := List.eq_of_mem_replicate h
        revert this
        decide
      · decide
    have hscan : Scan longLineConfig = (["Host a".toList], some ConfigError.ErrTooLong) :=
      Scan_two _ (by rw [byteLen_replicate_hash]; decide)
    unfold ParseSSHConfig
    simp only [ScanLines.loop_fileText longLineConfig [] hnl (by simp), if_true,
      List.append_nil, hscan]
    decide

/-- C15 (amended): for every file whose lines are all shorter than 64 KiB, made of
lines that are not `Host` lines followed by blocks in each of which `HostName`, `User`
and `Port` appear at most once, `ParseSSHConfig` returns no error and, in file order,
exactly the entries of the blocks: one per `Host` line whose pattern contains no `*`,
with the alias, the `HostName` and `User` of its own block (empty when absent) and
its `Port` (`22` when absent).  A block whose pattern contains `*` yields no entry,
and its lines, like the lines before the first `Host` line, change no entry.
In a file with a line of 64 KiB or more, whatever its content, `ParseSSHConfig`
returns the hosts of the lines before the first such line, with the error
`ErrTooLong`.
A line gives a directive its value exactly as written: a line made of a keyword, white
space and an argument gives the argument to the directive named by the keyword in
lower case and to no other, whatever follows the argument; a blank line, a line of
one word and a comment give nothing. -/
theorem ParseSSHConfig_blocks (ToLower : List Char → List Char)
    (lines : List (List Char)) (last : List Char)
    (pre : List (List Char)) (blocks : List HostBlock)
    (hnewline : (∀ l ∈ lines, '\n' ∉ l) ∧ '\n' ∉ last)
    (hshort : (∀ l ∈ lines, byteLen l < maxScanTokenSize) ∧ byteLen last < maxScanTokenSize)
    (hsplit : lines ++ (if last = [] then [] else [last]) =
      pre ++ blocks.flatMap HostBlock.lines)
    (hpre : ∀ l ∈ pre, ParseSSHConfig.valueOf ToLower "host".toList l = none)
    (hblocks : ∀ b ∈ blocks,
      (ParseSSHConfig.valueOf ToLower "host".toList b.head).isSome = true ∧
      (∀ l ∈ b.body, ParseSSHConfig.valueOf ToLower "host".toList l = none) ∧
      (b.body.filterMap (ParseSSHConfig.valueOf ToLower "hostname".toList)).length ≤ 1 ∧
      (b.body.filterMap (ParseSSHConfig.valueOf ToLower "user".toList)).length ≤ 1 ∧
      (b.body.filterMap (ParseSSHConfig.valueOf ToLower "port".toList)).length ≤ 1) :
    ParseSSHConfig ToLower (Except.ok (fileText lines last)) =
      (blocks.filterMap (HostBlock.entry ToLower), none) ∧
    (∀ (before : List (List Char)) (long after : List Char),
      (∀ l ∈ before, '\n' ∉ l ∧ byteLen l < maxScanTokenSize) →
      '\n' ∉ long ∧ maxScanTokenSize ≤ byteLen long →
      (after = [] ∨ ∃ r, after = '\n' :: r) →
      ParseSSHConfig ToLower (Except.ok (fileText before (long ++ after))) =
        ((ParseSSHConfig ToLower (Except.ok (fileText before []))).1,
          some ConfigError.ErrTooLong)) ∧
    (∀ (d : DirectiveLine) (name : List Char), d.wellFormed = true →
      ParseSSHConfig.valueOf ToLower name d.text =
        if ToLower d.key = name then some d.value else none) ∧
    (∀ indent word trailing name : List Char, (∀ c ∈ indent, isSpace c = true) →
      (∀ c ∈ word, isSpace c = false) → (∀ c ∈ trailing, isSpace c = true) →
      ParseSSHConfig.valueOf ToLower name (indent ++ (word ++ trailing)) = none) ∧
    (∀ indent text name : List Char, (∀ c ∈ indent, isSpace c = true) →
      ParseSSHConfig.valueOf ToLower name (indent ++ '#' :: text) = none) := by
  refine ⟨?_, ParseSSHConfig.long_line ToLower,
    fun d name hd => ParseSSHConfig.valueOf_eq ToLower name d.text _ _
      (ParseSSHConfig.directive_text ToLower d hd),
    fun indent word trailing name hi hw ht => ParseSSHConfig.valueOf_none ToLower name _
      (ParseSSHConfig.directive_word ToLower indent word trailing hi hw ht),
    fun indent text name hi => ParseSSHConfig.valueOf_none ToLower name _
      (ParseSSHConfig.directive_comment ToLower indent text hi)⟩
  have hall : ∀ l ∈ lines ++ (if last = [] then [] else [last]),
      byteLen l < maxScanTokenSize := by
    intro l hl
    rcases List.mem_append.1 hl with hl | hl
    · exact hshort.1 l hl
    · by_cases hlast : last = []
      · rw [if_pos hlast] at hl
        cases hl
      · rw [if_neg hlast] at hl
        rw [List.mem_singleton.1 hl]
        exact hshort.2
  unfold ParseSSHConfig
  simp only [ScanLines.loop_fileText lines last hnewline.1 hnewline.2, Scan_short _ hall,
    ParseSSHConfig.scan_dropCR]
  rw [hsplit, ParseSSHConfig.scan_append, ParseSSHConfig.scan_idle ToLower pre [] hpre,
    ParseSSHConfig.scan_blocks ToLower blocks hblocks]
  rfl

set_option maxRecDepth 8000 in
/-- Witness for C15 (amended): the file of `TestParseSSHConfig`, a comment followed by
five blocks, one of them `Host *`, yields the four hosts the test expects and no
error. -/
theorem ParseSSHConfig_blocks_witness :
    fileText testConfig [] = testText ∧
    ParseSSHConfig asciiToLower (Except.ok (fileText testConfig [])) =
      ([⟨"homelab".toList, "100.72.192.70".toList, "wv3".toList, "22".toList⟩,
        ⟨"sonia-mac".toList, "100.75.170.108".toList, "sonia".toList, "22".toList⟩,
        ⟨"basic".toList, "example.com".toList, [], "22".toList⟩,
        ⟨"with-custom-port".toList, "custom.example.com".toList, "admin".toList,
          "2222".toList⟩], none) :=
  ⟨by decide,
    (ParseSSHConfig_blocks asciiToLower testConfig [] ["# Test SSH config".toList]
      testBlocks ⟨by decide, by decide⟩ ⟨by decide, by decide⟩ (by decide) (by decide)
      (by decide)).1.trans (by decide)⟩

/-! ## Theorems: the `load` command -/

theorem loadCmd.scan_eq_rows {σ : Type} (GetLoad : Sampler σ) (hosts : List String)
    (best : Option LoadInfo) (w : σ) :
    loadCmd.scan GetLoad hosts best w =
      (loadCmd.rows hosts (sampleAll GetLoad hosts w).1 best,
        (sampleAll GetLoad hosts w).2) := by
  induction hosts generalizing best w with
  | nil => rfl
  | cons h rest ih => simp only [loadCmd.scan, sampleAll, loadCmd.rows, ih]

/-- The two loops keep the same `best`: `loadCmd` marks a row exactly when the scan
of `FindBest` assigns `best`. -/
theorem loadCmd.step_eq (acc : Option (Nat × LoadInfo)) (i : Nat) (h : String)
    (o : Outcome) :
    (loadCmd.step (acc.map Prod.snd) h o).2 = (FindBest.step acc i o).map Prod.snd ∧
    ∀ rows, lastMarked ((loadCmd.step (acc.map Prod.snd) h o).1 :: rows) i acc =
      lastMarked rows (i + 1) (FindBest.step acc i o) := by
  cases o with
  | error e => exact ⟨rfl, fun _ => rfl⟩
  | ok info =>
    cases hr : info.Reachable with
    | false =>
      refine ⟨?_, fun rows => ?_⟩
      · simp [loadCmd.step, FindBest.step, hr]
      · simp [loadCmd.step, FindBest.step, hr, lastMarked]
    | true =>
      cases acc with
      | none =>
        refine ⟨?_, fun rows => ?_⟩
        · simp [loadCmd.step, FindBest.step, hr]
        · simp [loadCmd.step, FindBest.step, hr, lastMarked]
      | some kb =>
        obtain ⟨k, b⟩ := kb
        cases hlt : info.Score.lt b.Score with
        | true =>
          refine ⟨?_, fun rows => ?_⟩
          · simp [loadCmd.step, FindBest.step, hr, hlt]
          · simp [loadCmd.step, FindBest.step, hr, hlt, lastMarked]
        | false =>
          refine ⟨?_, fun rows => ?_⟩
          · simp [loadCmd.step, FindBest.step, hr, hlt]
          · simp [loadCmd.step, FindBest.step, hr, hlt, lastMarked]

theorem loadCmd.lastMarked_rows (hosts : List String) :
    ∀ (os : List Outcome) (i : Nat) (acc : Option (Nat × LoadInfo)),
      hosts.length = os.length →
      lastMarked (loadCmd.rows hosts os (acc.map Prod.snd)) i acc =
        FindBest.select os i acc := by
  induction hosts with
  | nil =>
    intro os i acc hlen
    have : os = [] := List.length_eq_zero.1 hlen.symm
    subst this
    rfl
  | cons h rest ih =>
    intro os i acc hlen
    cases os with
    | nil => simp at hlen
    | cons o os =>
      have hlen2 : rest.length = os.length := by simpa using hlen
      obtain ⟨h1, h2⟩ := loadCmd.step_eq acc i h o
      simp only [loadCmd.rows, FindBest.select]
      rw [h2, h1]
      exact ih os (i + 1) _ hlen2

theorem loadCmd.bestAfter_eq (hosts : List String) :
    ∀ (os : List Outcome) (i : Nat) (acc : Option (Nat × LoadInfo)),
      hosts.length = os.length →
      loadCmd.bestAfter hosts os (acc.map Prod.snd) =
        (FindBest.select os i acc).map Prod.snd := by
  induction hosts with
  | nil =>
    intro os i acc hlen
    have : os = [] := List.length_eq_zero.1 hlen.symm
    subst this
    rfl
  | cons h rest ih =>
    intro os i acc hlen
    cases os with
    | nil => simp at hlen
    | cons o os =>
      have hlen2 : rest.length = os.length := by simpa using hlen
      simp only [loadCmd.bestAfter, FindBest.select]
      rw [(loadCmd.step_eq acc i h o).1]
      exact ih os (i + 1) _ hlen2

theorem loadCmd.rows_length (hosts : List String) :
    ∀ (os : List Outcome) (best : Option LoadInfo), hosts.length = os.length →
      (loadCmd.rows hosts os best).length = hosts.length := by
  induction hosts with
  | nil => intro os best _; rfl
  | cons h rest ih =>
    intro os best hlen
    cases os with
    | nil => simp at hlen
    | cons o os =>
      simp only [loadCmd.rows, List.length_cons]
      rw [ih os _ (by simpa using hlen)]

theorem loadCmd.rows_append (h1 : List String) :
    ∀ (o1 : List Outcome) (h2 : List String) (o2 : List Outcome) (best : Option LoadInfo),
      h1.length = o1.length →
      loadCmd.rows (h1 ++ h2) (o1 ++ o2) best =
        loadCmd.rows h1 o1 best ++ loadCmd.rows h2 o2 (loadCmd.bestAfter h1 o1 best) := by
  induction h1 with
  | nil =>
    intro o1 h2 o2 best hlen
    have : o1 = [] := List.length_eq_zero.1 hlen.symm
    subst this
    cases h2 <;> rfl
  | cons h rest ih =>
    intro o1 h2 o2 best hlen
    cases o1 with
    | nil => simp at hlen
    | cons o os =>
      rw [List.cons_append, List.cons_append]
      simp only [loadCmd.rows, loadCmd.bestAfter]
      rw [ih os h2 o2 _ (by simpa using hlen)]
      rfl

theorem loadCmd.step_marked_iff (best : Option LoadInfo) (h : String) (o : Outcome)
    (s : LoadInfo) :
    (loadCmd.step best h o).1 = Row.metrics s true ↔
      o = Except.ok s ∧ s.Reachable = true ∧
        (best = none ∨ ∃ b, best = some b ∧ s.Score.lt b.Score = true) := by
  cases o with
  | error e => simp [loadCmd.step]
  | ok info =>
    cases hr : info.Reachable with
    | false =>
      simp only [loadCmd.step, hr, Bool.not_false, if_true, Except.ok.injEq]
      constructor
      · intro h1; cases h1
      · rintro ⟨rfl, h2, -⟩
        rw [hr] at h2; cases h2
    | true =>
      cases best with
      | none =>
        simp only [loadCmd.step, hr, Bool.not_true, Bool.false_eq_true, if_false,
          Row.metrics.injEq, and_true, Except.ok.injEq, true_or]
        constructor
        · rintro rfl; exact ⟨rfl, hr⟩
        · rintro ⟨rfl, -⟩; rfl
      | some b =>
        cases hlt : info.Score.lt b.Score with
        | true =>
          simp only [loadCmd.step, hr, Bool.not_true, Bool.false_eq_true, if_false, hlt,
            if_true, Row.metrics.injEq, and_true, Except.ok.injEq]
          constructor
          · rintro rfl; exact ⟨rfl, hr, Or.inr ⟨b, rfl, hlt⟩⟩
          · rintro ⟨rfl, -⟩; rfl
        | false =>
          simp only [loadCmd.step, hr, Bool.not_true, Bool.false_eq_true, if_false, hlt,
            Row.metrics.injEq, and_false, Except.ok.injEq, false_iff]
          rintro ⟨rfl, -, h3⟩
          rcases h3 with h3 | ⟨b2, h3, h4⟩
          · cases h3
          · simp only [Option.some.injEq] at h3
            subst h3
            rw [hlt] at h4; cases h4

theorem split_at_index {α : Type} (l : List α) (i : Nat) (a : α) (h : l[i]? = some a) :
    l = l.take i ++ a :: l.drop (i + 1) ∧ (l.take i).length = i := by
  obtain ⟨hi, ha⟩ := List.getElem?_eq_some_iff.1 h
  refine ⟨?_, by rw [List.length_take]; omega⟩
  conv_lhs => rw [← List.take_append_drop i l, List.drop_eq_getElem_cons hi, ha]

/-- The row `loadCmd` writes at index `i`, from the selection made on the outcomes
before `i`. -/
theorem loadCmd.row_at (hosts : List String) (os : List Outcome) (i : Nat) (h : String)
    (o : Outcome) (hh : hosts[i]? = some h) (ho : os[i]? = some o) :
    (loadCmd.rows hosts os none)[i]? =
      some (loadCmd.step ((FindBest.select (os.take i) 0 none).map Prod.snd) h o).1 := by
  obtain ⟨hos, hol⟩ := split_at_index os i o ho
  obtain ⟨hhs, hhl⟩ := split_at_index hosts i h hh
  have hl : (hosts.take i).length = (os.take i).length := by rw [hol, hhl]
  have hrl := loadCmd.rows_length (hosts.take i) (os.take i) none hl
  have hb := loadCmd.bestAfter_eq (hosts.take i) (os.take i) 0 none hl
  simp only [Option.map_none'] at hb
  conv_lhs => rw [hhs, hos]
  rw [loadCmd.rows_append _ _ _ _ _ hl, hb,
    List.getElem?_append_right (by rw [hrl, hhl]), hrl, hhl, Nat.sub_self]
  simp only [loadCmd.rows, List.getElem?_cons_zero]

theorem Float64.lt_of_lt_of_le (s b t : Float64) (h1 : s.lt b = true) (h2 : b.le t = true) :
    s.lt t = true := by
  simp only [Float64.lt, Float64.le, Bool.and_eq_true, Bool.not_eq_true',
    decide_eq_true_eq] at *
  obtain ⟨⟨hs, -⟩, hlt⟩ := h1
  obtain ⟨⟨-, ht⟩, hle⟩ := h2
  exact ⟨⟨hs, ht⟩, by omega⟩

/-- The rows `loadCmd` marks: a marked row is a reachable sample; every strict running
minimum is marked; when no reachable sample has a NaN score, every marked row is a
strict running minimum. -/
theorem loadCmd.marks_spec (hosts : List String) (os : List Outcome)
    (hlen : hosts.length = os.length) :
    (∀ (i : Nat) (s : LoadInfo), (loadCmd.rows hosts os none)[i]? = some (Row.metrics s true) →
      os[i]? = some (Except.ok s) ∧ s.Reachable = true) ∧
    (∀ i, strictRunningMinimum os i →
      ∃ s, (loadCmd.rows hosts os none)[i]? = some (Row.metrics s true)) ∧
    ((∀ s : LoadInfo, Except.ok s ∈ os → s.Reachable = true → s.Score.isNaN = false) →
      ∀ (i : Nat) (s : LoadInfo), (loadCmd.rows hosts os none)[i]? = some (Row.metrics s true) →
        strictRunningMinimum os i) := by
  -- the row at an index below the length
  have hrow : ∀ (i : Nat) (s : LoadInfo), (loadCmd.rows hosts os none)[i]? = some (Row.metrics s true) →
      ∃ (h : String) (o : Outcome), hosts[i]? = some h ∧ os[i]? = some o ∧
        (loadCmd.step ((FindBest.select (os.take i) 0 none).map Prod.snd) h o).1 =
          Row.metrics s true := by
    intro i s hm
    have hi : i < (loadCmd.rows hosts os none).length := (List.getElem?_eq_some_iff.1 hm).1
    rw [loadCmd.rows_length hosts os none hlen] at hi
    have hh : hosts[i]? = some hosts[i] := List.getElem?_eq_getElem hi
    have hio : i < os.length := hlen ▸ hi
    have ho : os[i]? = some os[i] := List.getElem?_eq_getElem hio
    refine ⟨_, _, hh, ho, ?_⟩
    rw [loadCmd.row_at hosts os i _ _ hh ho] at hm
    exact Option.some.inj hm
  obtain ⟨hnone, hsome⟩ : (∀ i : Nat, FindBest.select (os.take i) 0 none = none →
        ∀ (j : Nat) (t : LoadInfo), j < i → os[j]? = some (Except.ok t) →
          t.Reachable = false) ∧
      (∀ (i k : Nat) (b : LoadInfo), FindBest.select (os.take i) 0 none = some (k, b) →
        (k < i ∧ os[k]? = some (Except.ok b) ∧ b.Reachable = true) ∧
        ∀ (j : Nat) (t : LoadInfo), j < i → os[j]? = some (Except.ok t) →
          t.Reachable = true → t.Score.lt b.Score = false) := by
    refine ⟨?_, ?_⟩
    · intro i hsel j t hj hjt
      have := (FindBest.select_invariant (os.take i)).1.1 hsel t
        (List.getElem?_mem (by rw [List.getElem?_take_of_lt hj]; exact hjt))
      exact this
    · intro i k b hsel
      obtain ⟨h1, h2, h3⟩ := (FindBest.select_invariant (os.take i)).2 k b hsel
      have hk : k < (os.take i).length := (List.getElem?_eq_some_iff.1 h1).1
      have hki : k < i := by
        rw [List.length_take] at hk
        omega
      rw [List.getElem?_take_of_lt hki] at h1
      refine ⟨⟨hki, h1, h2⟩, ?_⟩
      intro j t hj hjt hr
      exact (h3 j t (by rw [List.getElem?_take_of_lt hj]; exact hjt) hr).1
  refine ⟨?_, ?_, ?_⟩
  · intro i s hm
    obtain ⟨h, o, -, ho, hst⟩ := hrow i s hm
    obtain ⟨rfl, hr, -⟩ := (loadCmd.step_marked_iff _ h o s).1 hst
    exact ⟨ho, hr⟩
  · rintro i ⟨s, hs, hr, hmin⟩
    have hi : i < os.length := (List.getElem?_eq_some_iff.1 hs).1
    have hih : i < hosts.length := hlen ▸ hi
    have hh : hosts[i]? = some hosts[i] := List.getElem?_eq_getElem hih
    refine ⟨s, ?_⟩
    rw [loadCmd.row_at hosts os i _ _ hh hs]
    congr 1
    rw [loadCmd.step_marked_iff]
    refine ⟨rfl, hr, ?_⟩
    cases hsel : FindBest.select (os.take i) 0 none with
    | none => exact Or.inl rfl
    | some kb =>
      obtain ⟨k, b⟩ := kb
      obtain ⟨⟨hki, hkb, hbr⟩, -⟩ := hsome i k b hsel
      exact Or.inr ⟨b, rfl, hmin k b hki hkb hbr⟩
  · intro hnan i s hm
    obtain ⟨h, o, -, ho, hst⟩ := hrow i s hm
    obtain ⟨rfl, hr, hbest⟩ := (loadCmd.step_marked_iff _ h _ s).1 hst
    refine ⟨s, ho, hr, ?_⟩
    intro j t hj hjt htr
    cases hsel : FindBest.select (os.take i) 0 none with
    | none =>
      have := hnone i hsel j t hj hjt
      rw [htr] at this; cases this
    | some kb =>
      obtain ⟨k, b⟩ := kb
      rw [hsel] at hbest
      rcases hbest with hbest | ⟨b2, hb2, hlt⟩
      · cases hbest
      · simp only [Option.map_some', Option.some.injEq] at hb2
        subst hb2
        obtain ⟨⟨-, hkb, hbr⟩, hle⟩ := hsome i k b hsel
        have hbt : b.Score.le t.Score = true :=
          Float64.le_of_not_lt t.Score b.Score (hnan t (List.getElem?_mem hjt) htr)
            (hnan b (List.getElem?_mem hkb) hbr) (hle j t hj hjt htr)
        exact Float64.lt_of_lt_of_le _ _ _ hlt hbt

theorem lastMarked_unmarked (rows : List Row) (i : Nat) (found : Option (Nat × LoadInfo))
    (h : ∀ s, Row.metrics s true ∉ rows) : lastMarked rows i found = found := by
  induction rows generalizing i with
  | nil => rfl
  | cons row rest ih =>
    have hrest := ih (i + 1) (fun s hs => h s (List.mem_cons_of_mem _ hs))
    cases row with
    | dashes host => simpa [lastMarked] using hrest
    | metrics info marker =>
      cases marker with
      | true => exact absurd (List.mem_cons_self _ _) (h info)
      | false => simpa [lastMarked] using hrest

/-- C18 (as stated, refuted): on the outcomes `[{host1, 10.0}, {host2, NaN}, {host3,
5.0}]`, all reachable, `loadCmd` marks the rows of `host1` and `host3`; but `host3`
is not a strict running minimum, its score not being less than the score of
`host2`. -/
theorem loadCmd_marks_not_running_minimum :
    (sampleAll replay ["host1", "host2", "host3"] nanMiddle).1 = nanMiddle ∧
    (loadCmd replay ["host1", "host2", "host3"] nanMiddle).1 =
      [Row.metrics (sample "host1" f10 true) true,
       Row.metrics (sample "host2" fNaN true) false,
       Row.metrics (sample "host3" f5 true) true] ∧
    ¬ strictRunningMinimum nanMiddle 2 := by
  refine ⟨rfl, by decide, ?_⟩
  rintro ⟨s, hs, -, hmin⟩
  have hs2 : s = sample "host3" f5 true := by
    simp only [nanMiddle, List.getElem?_cons_succ, List.getElem?_cons_zero,
      Option.some.injEq, Except.ok.injEq] at hs
    exact hs.symm
  subst hs2
  have := hmin 1 (sample "host2" fNaN true) (by decide) rfl rfl
  revert this
  decide

/-- C18 (amended): the selection scan of the `load` command agrees with `FindBest`.
For every sequence of sampling outcomes it makes the same calls, the last row it
marks with the arrow is, index and sample, what `FindBest` returns, and no row is
marked exactly when `FindBest` fails.  Every marked row is a reachable sample, every
strict running minimum is marked, and when no reachable sample has a NaN score the
marked rows are exactly the strict running minima. -/
theorem loadCmd_agrees_with_FindBest {σ : Type} (GetLoad : Sampler σ) (hosts : List String)
    (w : σ) :
    (loadCmd GetLoad hosts w).2 = (FindBest GetLoad hosts w).2 ∧
    (FindBestAt GetLoad hosts w).1 =
      (match lastMarked (loadCmd GetLoad hosts w).1 0 none with
        | none => Except.error Error.noReachableHosts
        | some p => Except.ok p) ∧
    ((∀ s, Row.metrics s true ∉ (loadCmd GetLoad hosts w).1) ↔
      (FindBest GetLoad hosts w).1 = Except.error Error.noReachableHosts) ∧
    (∀ (i : Nat) (s : LoadInfo),
      (loadCmd GetLoad hosts w).1[i]? = some (Row.metrics s true) →
      (sampleAll GetLoad hosts w).1[i]? = some (Except.ok s) ∧ s.Reachable = true) ∧
    (∀ i, strictRunningMinimum (sampleAll GetLoad hosts w).1 i →
      ∃ s, (loadCmd GetLoad hosts w).1[i]? = some (Row.metrics s true)) ∧
    ((∀ s : LoadInfo, Except.ok s ∈ (sampleAll GetLoad hosts w).1 → s.Reachable = true →
        s.Score.isNaN = false) →
      ∀ (i : Nat) (s : LoadInfo),
        (loadCmd GetLoad hosts w).1[i]? = some (Row.metrics s true) →
        strictRunningMinimum (sampleAll GetLoad hosts w).1 i) := by
  have hlen : hosts.length = (sampleAll GetLoad hosts w).1.length :=
    (sampleAll_length GetLoad hosts w).symm
  have hrows : (loadCmd GetLoad hosts w).1 =
      loadCmd.rows hosts (sampleAll GetLoad hosts w).1 none := by
    unfold loadCmd
    rw [loadCmd.scan_eq_rows]
  have hlast : lastMarked (loadCmd GetLoad hosts w).1 0 none =
      FindBest.select (sampleAll GetLoad hosts w).1 0 none := by
    rw [hrows]
    exact loadCmd.lastMarked_rows hosts _ 0 none hlen
  obtain ⟨hA, hB, hC⟩ := loadCmd.marks_spec hosts (sampleAll GetLoad hosts w).1 hlen
  refine ⟨?_, ?_, ?_, ?_, ?_, ?_⟩
  · unfold loadCmd
    rw [loadCmd.scan_eq_rows, FindBest_eq_select]
    cases FindBest.select (sampleAll GetLoad hosts w).1 0 none <;> rfl
  · rw [hlast, FindBestAt_eq_select]
    cases FindBest.select (sampleAll GetLoad hosts w).1 0 none <;> rfl
  · rw [FindBest_eq_select]
    constructor
    · intro hno
      have := lastMarked_unmarked (loadCmd GetLoad hosts w).1 0 none hno
      rw [hlast] at this
      rw [this]
    · intro hfail s hs
      have hsel : FindBest.select (sampleAll GetLoad hosts w).1 0 none = none := by
        cases hsel : FindBest.select (sampleAll GetLoad hosts w).1 0 none with
        | none => rfl
        | some p => rw [hsel] at hfail; cases hfail
      obtain ⟨i, hi⟩ := List.mem_iff_getElem?.1 hs
      rw [hrows] at hi
      obtain ⟨h1, h2⟩ := hA i s hi
      have := (FindBest.select_invariant (sampleAll GetLoad hosts w).1).1.1 hsel s
        (List.getElem?_mem h1)
      rw [h2] at this
      cases this
  · intro i s hm
    rw [hrows] at hm
    exact hA i s hm
  · intro i hsrm
    rw [hrows]
    exact hB i hsrm
  · intro hnan i s hm
    rw [hrows] at hm
    exact hC hnan i s hm

/-- Witness for C18 (amended): a host at `50.0` followed by two hosts tied at `30.0`:
the rows of the first two hosts are marked, the second one is a strict running
minimum and is the host `FindBest` returns. -/
theorem loadCmd_agrees_with_FindBest_witness :
    (loadCmd replay ["host1", "host2", "host3"] tiedAfterFirst).1 =
      [Row.metrics (sample "host1" f50 true) true,
       Row.metrics (sample "host2" f30 true) true,
       Row.metrics (sample "host3" f30 true) false] ∧
    (FindBestAt replay ["host1", "host2", "host3"] tiedAfterFirst).1 =
      Except.ok (1, sample "host2" f30 true) ∧
    strictRunningMinimum (sampleAll replay ["host1", "host2", "host3"] tiedAfterFirst).1 1 :=
  ⟨by decide, rfl,
    (loadCmd_agrees_with_FindBest replay ["host1", "host2", "host3"] tiedAfterFirst).2.2.2.2.2
      (by
        intro s hs _
        simp only [sampleAll, replay, tiedAfterFirst, List.mem_cons, Except.ok.injEq,
          List.mem_nil_iff, or_false] at hs
        rcases hs with hs | hs | hs <;> rw [hs] <;> decide)
      1 (sample "host2" f30 true) (by decide)⟩

/-- Witness for C14: with the host flag `box` the result is `[box]` and the
configuration is not loaded; without it, the default configuration, whose group `dev`
has no hosts, yields the error `no hosts in group`. -/
theorem getTargetHosts_nonempty_witness :
    getTargetHosts "box" "dev" loadDefault 0 = (Except.ok ["box"], 0) ∧
    (getTargetHosts "" "dev" loadDefault 0).1 =
      Except.error (TargetError.noHostsInGroup "dev") :=
  ⟨(getTargetHosts_nonempty "box" "dev" loadDefault 0).2.1 (by decide),
    ((getTargetHosts_nonempty "" "dev" loadDefault 0).2.2 rfl ⟨[("dev", [])]⟩ rfl).2 rfl⟩

/-- Witness for C16: in the hosts of `TestGetHost`, `host2` is found and `nonexistent`
is not. -/
theorem GetHost_first_match_witness :
    GetHost testHosts "host2".toList =
      some ⟨"host2".toList, "192.168.1.2".toList, "user2".toList, "2222".toList⟩ ∧
    GetHost testHosts "nonexistent".toList = none :=
  ⟨((GetHost_first_match testHosts "host2".toList).2 _).2
      ⟨[⟨"host1".toList, "192.168.1.1".toList, "user1".toList, "22".toList⟩],
        [⟨"host3".toList, "192.168.1.3".toList, "user3".toList, "22".toList⟩],
        rfl, rfl, by decide⟩,
    (GetHost_first_match testHosts "nonexistent".toList).1.2 (by decide)⟩

end Distributed
